import Mathlib

/-!
Verification development for the Code-Printer repository (two Python source
files: `main.py`, the legacy variant, and `export_code.py`, the generalized
variant).  The Python functions are shallowly embedded as executable Lean
definitions: strings are Lean `String`s manipulated through their character
lists, the mutable `contents` dict is threaded explicitly, `sys.exit` /
stderr effects are recorded in an explicit result record, and a filesystem
is a finite tree value.  `fnmatch.fnmatch` (Python standard library, POSIX
case-sensitive behaviour) is embedded as a recursive glob matcher supporting
`*`, `?` and `[...]` character classes with `!` negation and ranges, with an
unterminated `[` treated as a literal, as `fnmatch.translate` does.
-/

namespace CodePrinter

/-- Prefix test on strings, by character-list prefix (Python `str.startswith`). -/
def strStartsWith (s pre : String) : Bool :=
  pre.data.isPrefixOf s.data

/-- Suffix test on strings, by character-list suffix (Python `str.endswith`). -/
def strEndsWith (s suf : String) : Bool :=
  suf.data.isSuffixOf s.data

/-- ASCII lowercasing (Python `str.lower`; the repository only compares
ASCII extension strings, so ASCII case-folding is the relevant fragment). -/
def strToLower (s : String) : String :=
  String.mk (s.data.map Char.toLower)

/-- Python `str.strip()`: remove leading and trailing whitespace. -/
def stripStr (s : String) : String :=
  String.mk (((s.data.dropWhile Char.isWhitespace).reverse.dropWhile Char.isWhitespace).reverse)

/-- Python `pat.rstrip('/')`: remove all trailing slash characters. -/
def rstripSlash (s : String) : String :=
  String.mk ((s.data.reverse.dropWhile (fun c => c == '/')).reverse)

/-- Python `s.lstrip('.')`: remove all leading dot characters. -/
def lstripDot (s : String) : String :=
  String.mk (s.data.dropWhile (fun c => c == '.'))

/-- The substring after the last `'.'`, or the whole string when it has no
dot: Python `s.rsplit('.', 1)[-1]`. -/
def afterLastDot (s : String) : String :=
  String.mk ((s.data.reverse.takeWhile (fun c => c != '.')).reverse)

/-- Extension part of `os.path.splitext`, dot included (`".py"`), empty when
the basename has no dot or only leading dots (`".gitignore"` has no
extension). -/
def splitextExt (s : String) : String :=
  let base := (s.data.reverse.takeWhile (fun c => c != '/')).reverse
  let revBase := base.reverse
  let extRev := revBase.takeWhile (fun c => c != '.')
  if extRev.length == base.length then ("")
  else if (revBase.drop (extRev.length + 1)).any (fun c => c != '.') then
    String.mk ('.' :: extRev.reverse)
  else ("")

/-- The scan code's extension normalisation:
`os.path.splitext(name)[1].lower().lstrip('.')`. -/
def extOf (name : String) : String :=
  lstripDot (strToLower (splitextExt name))

/-! ## fnmatch embedding -/

/-- Scan a character-class body up to the closing `']'`; `none` when the
class is unterminated. -/
def findClose : List Char → Option (List Char × List Char)
  | [] => none
  | c :: rest =>
    if c = ']' then some ([], rest)
    else
      match findClose rest with
      | some (content, r) => some (c :: content, r)
      | none => none

/-- Body of a `[...]` class after the optional `'!'`: a `']'` in first
position is literal, and the content runs to the first later `']'`. -/
def bracketBody (l : List Char) : Option (List Char × List Char) :=
  match l with
  | [] => none
  | c :: rest =>
    if c = ']' then
      match findClose rest with
      | some (content, r) => some (']' :: content, r)
      | none => none
    else findClose (c :: rest)

/-- Parse a `[...]` class body after the opening bracket: an optional
leading `'!'` negates the class (Python `fnmatch.translate`). -/
def parseBracket (ps : List Char) : Option (Bool × List Char × List Char) :=
  match ps with
  | [] => none
  | c :: rest =>
    if c = '!' then (bracketBody rest).map (fun p => (true, p.1, p.2))
    else (bracketBody (c :: rest)).map (fun p => (false, p.1, p.2))

/-- Interpret a class body as (lo, hi) ranges: `a-b` is a range, any other
character is a singleton range; an unmatched trailing `-` is a literal. -/
def bracketItems : List Char → List (Char × Char)
  | a :: '-' :: b :: rest => (a, b) :: bracketItems rest
  | a :: rest => (a, a) :: bracketItems rest
  | [] => []

/-- Membership of a character in a parsed class body. -/
def inBracket (content : List Char) (c : Char) : Bool :=
  (bracketItems content).any (fun p => p.1 ≤ c && c ≤ p.2)

/-- Core glob matcher on character lists (pattern, candidate), with
`fnmatch` semantics: `*` matches any sequence (separators included), `?`
any single character, `[...]` a character class. -/
def globMatch : List Char → List Char → Bool
  | [], [] => true
  | [], _ :: _ => false
  | p :: ps, s =>
    if p = '*' then
      match s with
      | [] => globMatch ps []
      | c :: cs => globMatch ps (c :: cs) || globMatch (p :: ps) cs
    else if p = '?' then
      match s with
      | [] => false
      | _ :: cs => globMatch ps cs
    else if p = '[' then
      match parseBracket ps with
      | some (neg, content, rest) =>
        match s with
        | [] => false
        | c :: cs =>
          (if neg then !(inBracket content c) else inBracket content c) &&
            globMatch rest cs
      | none =>
        match s with
        | c :: cs => (c = '[') && globMatch ps cs
        | [] => false
    else
      match s with
      | [] => false
      | c :: cs => (p = c) && globMatch ps cs
termination_by p s => (s.length, p.length)

/-- Python `fnmatch.fnmatch(name, pat)` on POSIX (where `os.path.normcase`
is the identity). -/
def fnmatchB (name pat : String) : Bool :=
  globMatch pat.data name.data

/-! ## Filter predicates (both variants) -/

/-- The `MEDIA_EXTENSIONS` set, identical in both source files. -/
def MEDIA_EXTENSIONS : List String :=
  ["png", "jpg", "jpeg", "gif", "bmp", "svg", "ico",
   "mp4", "mov", "avi", "mkv", "flv", "wmv", "webm"]

/-- `main.py is_hidden`: name starts with a dot. -/
def is_hidden (name : String) : Bool :=
  strStartsWith name (".")

/-- `main.py is_media_file`: the part after the last dot of the lowercased
name (the whole name when it has no dot) is a media extension. -/
def is_media_file (filename : String) : Bool :=
  MEDIA_EXTENSIONS.contains (afterLastDot (strToLower filename))

/-- `main.py is_ignored`: some pattern glob-matches the path, or ends in
`'/'` and the path starts with the pattern minus its trailing slashes. -/
def is_ignored (path : String) (patterns : List String) : Bool :=
  patterns.any (fun pat =>
    (strEndsWith pat ("/") && strStartsWith path (rstripSlash pat)) ||
      fnmatchB path pat)

/-- `load_gitignore` (same in both files), as a function of the ignore
file's lines (`none` when the file is absent): keep stripped non-empty
non-comment lines, then always append `".git/"`. -/
def load_gitignore (gitignoreLines : Option (List String)) : List String :=
  (match gitignoreLines with
   | none => []
   | some lines =>
     (lines.map stripStr).filter (fun line =>
       !(line == "") && !(strStartsWith line ("#")))) ++ [".git/"]

/-- `export_code.py should_skip_tree`: hidden (unless requested), or some
pattern glob-matches the relative path, or media extension. -/
def should_skip_tree (name relPath : String) (patterns : List String)
    (includeHidden : Bool) : Bool :=
  if !includeHidden && strStartsWith name (".") then true
  else if patterns.any (fun pat => fnmatchB relPath pat) then true
  else if MEDIA_EXTENSIONS.contains (extOf name) then true
  else false

/-- `export_code.py should_skip_content`: ignored extension, or fails the
include globs (when some are given), or matches an exclude glob. -/
def should_skip_content (name relPath : String) (ignoreExts : List String)
    (includePats excludePats : List String) : Bool :=
  if ignoreExts.contains (extOf name) then true
  else if !includePats.isEmpty &&
      !(includePats.any (fun pat => fnmatchB relPath pat)) then true
  else if !excludePats.isEmpty &&
      (excludePats.any (fun pat => fnmatchB relPath pat)) then true
  else false

/-- Extension normalisation of `main.py`:
`fname.lower().rsplit('.', 1)[-1] if '.' in fname else ''`. -/
def legacyExtOf (fname : String) : String :=
  if fname.data.contains '.' then afterLastDot (strToLower fname) else ("")

/-- The per-file filter shared by `main.py print_tree` and
`main.py print_contents` (the `continue` condition). -/
def legacy_skip_file (fname relFile : String) (patterns : List String)
    (includeHidden : Bool) (ignoreExts : List String) : Bool :=
  is_media_file fname || is_ignored relFile patterns ||
    (!includeHidden && is_hidden fname) || ignoreExts.contains (legacyExtOf fname)

/-! ## Filesystem model and the generalized scanner -/

/-- A filesystem value: a file holds the result of reading it as UTF-8 text
(`none` when `open`/`read` raises: binary content, I/O error, ...); a
directory holds a `listable` flag (`false` when `os.listdir` raises
`PermissionError`) and its children, in no particular order. -/
inductive FSEntry : Type where
  | file (name : String) (readResult : Option String)
  | dir (name : String) (listable : Bool) (children : List FSEntry)
deriving Repr

/-- Name of a filesystem entry. -/
def fsName : FSEntry → String
  | .file n _ => n
  | .dir n _ _ => n

/-- Tree node produced by `scan`: `{'type': 'dir', 'name': .., 'children': ..}`
or `{'type': 'file', 'name': .., 'path': ..}`. -/
inductive Entry : Type where
  | dir (name : String) (children : List Entry)
  | file (name : String) (path : String)
deriving Repr

/-- The contents dict: relative path to decoded text (`some`) or the
unreadable sentinel `None` (`none`), in insertion order. -/
abbrev CMap := List (String × Option String)

/-- The keys of a contents dict, in order. -/
def keysOf (m : CMap) : List String := m.map Prod.fst

/-- Python dict assignment `m[k] = v`: overwrite in place when the key
exists, else append. -/
def dictInsert (m : CMap) (k : String) (v : Option String) : CMap :=
  if m.any (fun kv => kv.1 == k) then
    m.map (fun kv => if kv.1 == k then (k, v) else kv)
  else m ++ [(k, v)]

/-- `os.path.join(rel_base, name) if rel_base else name` with POSIX `/`. -/
def joinRel (base name : String) : String :=
  if base = "" then name else base ++ "/" ++ name

/-- The generalized variant's configuration (arguments of `scan`). -/
structure Config : Type where
  patterns : List String
  includeHidden : Bool
  ignoreExts : List String
  includePats : List String
  excludePats : List String
  maxDepth : Option Int
deriving Repr

/-- `max_depth is not None and depth > max_depth`. -/
def depthExceeded (maxDepth : Option Int) (depth : Nat) : Bool :=
  match maxDepth with
  | none => false
  | some m => (depth : Int) > m

/-- Insert an entry into a name-sorted list, before any entry whose name is
not strictly smaller (so insertion from the left is stable). -/
def insertByName (e : FSEntry) : List FSEntry → List FSEntry
  | [] => [e]
  | x :: xs => if decide (fsName x < fsName e) then x :: insertByName e xs else e :: x :: xs

/-- `sorted(os.listdir(...))`: stable ascending sort of sibling entries by
name, in code-point order (Python compares `str` by code points; a stable
sort is unique as a function, so insertion sort is the same function as
Python's sort). -/
def sortByName : List FSEntry → List FSEntry
  | [] => []
  | e :: rest => insertByName e (sortByName rest)

/-- Recursively sort every level of a filesystem value by name.  The Python
scanner sorts each directory listing at visit time; presorting the whole
tree and then traversing in order is extensionally the same walk. -/
def sortFS : FSEntry → FSEntry
  | .file n c => .file n c
  | .dir n b cs => .dir n b (sortByName (cs.attach.map (fun x => sortFS x.1)))
termination_by e => sizeOf e
decreasing_by
  simp_wf
  have := List.sizeOf_lt_of_mem x.2
  omega

/-- Presorted child list of the scan root. -/
def sortFSList (l : List FSEntry) : List FSEntry := sortByName (l.map sortFS)

/-- The recursive `_scan` worker of `export_code.py scan`, over a presorted
sibling list: threads the mutable `contents` dict, returns the entry list
of this level.  For a directory the depth check and the `PermissionError`
check of the recursive `_scan` call are inlined at the call site. -/
def scanGo (cfg : Config) (es : List FSEntry) (relBase : String) (depth : Nat)
    (contents : CMap) : List Entry × CMap :=
  match es with
  | [] => ([], contents)
  | e :: rest =>
    let name := fsName e
    let rel := joinRel relBase name
    if should_skip_tree name rel cfg.patterns cfg.includeHidden then
      scanGo cfg rest relBase depth contents
    else
      match e with
      | .dir _ listable children =>
        let sub : List Entry × CMap :=
          if depthExceeded cfg.maxDepth (depth + 1) then ([], contents)
          else if !listable then ([], contents)
          else scanGo cfg children rel (depth + 1) contents
        let restR := scanGo cfg rest relBase depth sub.2
        (.dir name sub.1 :: restR.1, restR.2)
      | .file _ readResult =>
        let c1 :=
          if should_skip_content name rel cfg.ignoreExts cfg.includePats cfg.excludePats
          then contents
          else dictInsert contents rel readResult
        let restR := scanGo cfg rest relBase depth c1
        (.file name rel :: restR.1, restR.2)
termination_by sizeOf es

/-- `export_code.py scan`: `tree = _scan(root_path, '', 0)` plus the final
`return tree, contents`.  The root is given by its `listable` flag and its
children. -/
def scan (cfg : Config) (rootListable : Bool) (rootChildren : List FSEntry) :
    List Entry × CMap :=
  if depthExceeded cfg.maxDepth 0 then ([], [])
  else if !rootListable then ([], [])
  else scanGo cfg (sortFSList rootChildren) "" 0 []

/-- All `(name, path)` pairs of File entries in a tree, in traversal order. -/
def filesOf : List Entry → List (String × String)
  | [] => []
  | .dir _ ch :: rest => filesOf ch ++ filesOf rest
  | .file n p :: rest => (n, p) :: filesOf rest
termination_by es => sizeOf es

/-! ## Renderers (generalized variant) -/

/-- `_print_tree` of `render_text`: four spaces per level, `/` suffix on
directories. -/
def renderTreeText : List Entry → String → String
  | [], _ => ""
  | .dir n ch :: rest, indent =>
    indent ++ n ++ "/\n" ++ renderTreeText ch (indent ++ "    ") ++
      renderTreeText rest indent
  | .file n _ :: rest, indent =>
    indent ++ n ++ "\n" ++ renderTreeText rest indent
termination_by es _ => sizeOf es

/-- One content block of `render_text`. -/
def contentBlock (path : String) (content : Option String) : String :=
  "\n=== " ++ path ++ " ===\n```" ++
    (match content with
     | some text => text
     | none => "[Binary or unreadable file: skipped]\n") ++ "```\n"

/-- `export_code.py render_text`, as the full string written to `out`. -/
def render_text (tree : List Entry) (contents : CMap) : String :=
  "Directory structure:\n" ++ renderTreeText tree ("") ++ "\nFile contents:\n" ++
    String.join (contents.map (fun kv => contentBlock kv.1 kv.2))

/-- `_md_tree` of `render_markdown`. -/
def renderTreeMd : List Entry → String → String
  | [], _ => ""
  | .dir n ch :: rest, indent =>
    indent ++ "- **" ++ n ++ "/**\n" ++ renderTreeMd ch (indent ++ "  ") ++
      renderTreeMd rest indent
  | .file n _ :: rest, indent =>
    indent ++ "- `" ++ n ++ "`\n" ++ renderTreeMd rest indent
termination_by es _ => sizeOf es

/-- One content block of `render_markdown`. -/
def mdBlock (path : String) (content : Option String) : String :=
  "#### " ++ path ++ "\n```" ++
    (match content with
     | some text => text
     | none => "[Binary or unreadable file: skipped]\n") ++ "```\n"

/-- `export_code.py render_markdown`, as the full string written to `out`. -/
def render_markdown (tree : List Entry) (contents : CMap) : String :=
  "## Directory structure\n" ++ renderTreeMd tree ("") ++ "\n## File contents\n" ++
    String.join (contents.map (fun kv => mdBlock kv.1 kv.2))

/-! ## Well-formed filesystems

Real directory listings have distinct, nonempty entry names without `/`;
the lemmas about path disjointness need exactly that. -/

/-- A legal entry name: nonempty and without a path separator. -/
def validName (n : String) : Bool :=
  (n != "") && n.data.all (fun c => c != '/')

/-- Pairwise-distinct strings. -/
def distinctStrs : List String → Bool
  | [] => true
  | s :: rest => (!rest.contains s) && distinctStrs rest

/-- Well-formed filesystem entry: valid name and, for a directory,
distinct child names and well-formed children. -/
def wfFS : FSEntry → Bool
  | .file n _ => validName n
  | .dir n _ cs =>
    validName n && distinctStrs (cs.map fsName) && cs.attach.all (fun x => wfFS x.1)
termination_by e => sizeOf e
decreasing_by
  simp_wf
  have := List.sizeOf_lt_of_mem x.2
  omega

/-- Well-formed sibling list (the root's children). -/
def wfSibs (l : List FSEntry) : Bool :=
  distinctStrs (l.map fsName) && l.all (fun e => wfFS e)

/-! ## Accumulator-free form of the scanner

`specTree`/`specCont` compute the same tree and contents as `scanGo`, with
the contents of each entry produced locally and concatenated, which makes
order and membership reasoning direct.  `scanGo_spec` below proves the
correspondence. -/

/-- The tree that `scanGo` builds from a presorted sibling list. -/
def specTree (cfg : Config) : List FSEntry → String → Nat → List Entry
  | [], _, _ => []
  | e :: rest, base, depth =>
    let name := fsName e
    let rel := joinRel base name
    if should_skip_tree name rel cfg.patterns cfg.includeHidden then
      specTree cfg rest base depth
    else
      match e with
      | .dir _ listable children =>
        Entry.dir name
          (if depthExceeded cfg.maxDepth (depth + 1) || !listable then []
           else specTree cfg children rel (depth + 1)) :: specTree cfg rest base depth
      | .file _ _ => Entry.file name rel :: specTree cfg rest base depth
termination_by es _ _ => sizeOf es

/-- The content associations that `scanGo` inserts from a presorted sibling
list, in insertion order. -/
def specCont (cfg : Config) : List FSEntry → String → Nat → CMap
  | [], _, _ => []
  | e :: rest, base, depth =>
    let name := fsName e
    let rel := joinRel base name
    if should_skip_tree name rel cfg.patterns cfg.includeHidden then
      specCont cfg rest base depth
    else
      match e with
      | .dir _ listable children =>
        (if depthExceeded cfg.maxDepth (depth + 1) || !listable then []
         else specCont cfg children rel (depth + 1)) ++ specCont cfg rest base depth
      | .file _ readResult =>
        (if should_skip_content name rel cfg.ignoreExts cfg.includePats cfg.excludePats
         then []
         else [(rel, readResult)]) ++ specCont cfg rest base depth
termination_by es _ _ => sizeOf es

/-- `k` is the path `q` itself or lies strictly below the directory `q`. -/
def underDir (q k : String) : Prop :=
  k = q ∨ q.data ++ ['/'] <+: k.data

/-! ## Path disjointness lemmas -/

theorem joinRel_data (base n : String) :
    (joinRel base n).data =
      (if base = "" then [] else base.data ++ ['/']) ++ n.data := by
  unfold joinRel
  split
  · simp
  · simp [String.data_append]

theorem validName_no_slash {n : String} (h : validName n = true) :
    ∀ c ∈ n.data, c ≠ '/' := by
  unfold validName at h
  simp at h
  intro c hc
  simpa using h.2 c hc

theorem validName_ne_empty {n : String} (h : validName n = true) : n.data ≠ [] := by
  unfold validName at h
  simp at h
  intro hd
  exact h.1 (String.ext hd)

theorem underDir_iff (q k : String) :
    underDir q k ↔ ∃ t, k.data = q.data ++ t ∧ (t = [] ∨ ∃ r, t = '/' :: r) := by
  unfold underDir
  constructor
  · rintro (rfl | ⟨t, ht⟩)
    · exact ⟨[], by simp, Or.inl rfl⟩
    · refine ⟨'/' :: t, ?_, Or.inr ⟨t, rfl⟩⟩
      rw [← ht]
      simp
  · rintro ⟨t, hk, (rfl | ⟨r, rfl⟩)⟩
    · left
      apply String.ext
      simpa using hk
    · right
      exact ⟨r, by simp [hk]⟩

theorem no_slash_sep_aux {a b t1 t2 : List Char}
    (hb : ∀ c ∈ b, c ≠ '/')
    (h1 : t1 = [] ∨ ∃ r, t1 = '/' :: r)
    (heq : a ++ t1 = b ++ t2) (hlen : a.length ≤ b.length) : a = b := by
  have hpa : a <+: b ++ t2 := heq ▸ List.prefix_append a t1
  have hpb : b <+: b ++ t2 := List.prefix_append b t2
  obtain ⟨u, hu⟩ := List.prefix_of_prefix_length_le hpa hpb hlen
  cases u with
  | nil => simpa using hu
  | cons c cs =>
    exfalso
    rw [← hu, List.append_assoc] at heq
    have ht1 : t1 = c :: (cs ++ t2) := List.append_cancel_left heq
    rcases h1 with h1 | ⟨r, hr⟩
    · rw [h1] at ht1
      exact List.cons_ne_nil _ _ ht1.symm
    · rw [hr] at ht1
      have hc : c = '/' := (List.cons.injEq _ _ _ _ ▸ ht1).1.symm
      have : c ∈ b := by
        rw [← hu]
        exact List.mem_append_right a (List.mem_cons_self c cs)
      exact hb c this hc

theorem no_slash_sep {a b t1 t2 : List Char}
    (ha : ∀ c ∈ a, c ≠ '/') (hb : ∀ c ∈ b, c ≠ '/')
    (h1 : t1 = [] ∨ ∃ r, t1 = '/' :: r) (h2 : t2 = [] ∨ ∃ r, t2 = '/' :: r)
    (heq : a ++ t1 = b ++ t2) : a = b := by
  rcases le_total a.length b.length with hle | hle
  · exact no_slash_sep_aux hb h1 heq hle
  · exact (no_slash_sep_aux ha h2 heq.symm hle).symm

theorem underDir_disjoint {base n1 n2 k : String}
    (h1 : validName n1 = true) (h2 : validName n2 = true) (hne : n1 ≠ n2)
    (u1 : underDir (joinRel base n1) k) (u2 : underDir (joinRel base n2) k) :
    False := by
  rw [underDir_iff] at u1 u2
  obtain ⟨t1, hk1, hs1⟩ := u1
  obtain ⟨t2, hk2, hs2⟩ := u2
  rw [joinRel_data, List.append_assoc] at hk1 hk2
  have heq : n1.data ++ t1 = n2.data ++ t2 :=
    List.append_cancel_left (hk1.symm.trans hk2)
  exact hne (String.ext (no_slash_sep (validName_no_slash h1)
    (validName_no_slash h2) hs1 hs2 heq))

theorem joinRel_data_ne_empty {base n : String} (h : validName n = true) :
    (joinRel base n).data ≠ [] := by
  rw [joinRel_data]
  intro hd
  exact validName_ne_empty h (List.append_eq_nil.mp hd).2

theorem underDir_up {rel cname k : String} (hrel : rel.data ≠ [])
    (h : underDir (joinRel rel cname) k) : rel.data ++ ['/'] <+: k.data := by
  rw [underDir_iff] at h
  obtain ⟨t, hk, -⟩ := h
  rw [joinRel_data] at hk
  have hne : ¬(rel = "") := fun hr => hrel (by simp [hr])
  rw [if_neg hne] at hk
  rw [hk, List.append_assoc]
  exact List.prefix_append _ _

theorem underDir_of_below {base n rel cname k : String}
    (hn : validName n = true) (hrel : rel = joinRel base n)
    (h : underDir (joinRel rel cname) k) : underDir (joinRel base n) k := by
  right
  rw [← hrel]
  exact underDir_up (hrel ▸ joinRel_data_ne_empty hn) h

/-! ## Well-formedness bridge lemmas -/

theorem wfFS_validName {e : FSEntry} (h : wfFS e = true) :
    validName (fsName e) = true := by
  cases e with
  | file n r => simpa [wfFS, fsName] using h
  | dir n b cs => rw [wfFS] at h ; simp at h ; simpa [fsName] using h.1.1

theorem wfFS_dir {n : String} {b : Bool} {cs : List FSEntry}
    (h : wfFS (.dir n b cs) = true) : validName n = true ∧ wfSibs cs = true := by
  rw [wfFS] at h
  simp at h
  refine ⟨h.1.1, ?_⟩
  unfold wfSibs
  simp [h.1.2]
  exact h.2

theorem wfSibs_cons {e : FSEntry} {rest : List FSEntry}
    (h : wfSibs (e :: rest) = true) :
    wfFS e = true ∧ wfSibs rest = true ∧ ∀ e' ∈ rest, fsName e' ≠ fsName e := by
  unfold wfSibs at h ⊢
  rw [show (e :: rest).map fsName = fsName e :: rest.map fsName by simp] at h
  rw [distinctStrs] at h
  simp at h ⊢
  obtain ⟨⟨hnc, hd⟩, hwf, hall⟩ := h
  exact ⟨hwf, ⟨hd, hall⟩, hnc⟩

/-! ## Unfolding equations -/

theorem specCont_nil (cfg : Config) (base : String) (depth : Nat) :
    specCont cfg [] base depth = [] := by
  rw [specCont.eq_def]

theorem specCont_skip {cfg : Config} {e : FSEntry} {base : String}
    (rest : List FSEntry) (depth : Nat)
    (h : should_skip_tree (fsName e) (joinRel base (fsName e)) cfg.patterns
      cfg.includeHidden = true) :
    specCont cfg (e :: rest) base depth = specCont cfg rest base depth := by
  rw [specCont.eq_def]
  simp [h]

theorem specCont_dir {cfg : Config} {n : String} {b : Bool} {cs : List FSEntry}
    {base : String} (rest : List FSEntry) (depth : Nat)
    (h : should_skip_tree n (joinRel base n) cfg.patterns cfg.includeHidden = false) :
    specCont cfg (.dir n b cs :: rest) base depth =
      (if depthExceeded cfg.maxDepth (depth + 1) || !b then []
       else specCont cfg cs (joinRel base n) (depth + 1)) ++
        specCont cfg rest base depth := by
  rw [specCont.eq_def]
  simp [fsName, h]

theorem specCont_file {cfg : Config} {n : String} {rr : Option String}
    {base : String} (rest : List FSEntry) (depth : Nat)
    (h : should_skip_tree n (joinRel base n) cfg.patterns cfg.includeHidden = false) :
    specCont cfg (.file n rr :: rest) base depth =
      (if should_skip_content n (joinRel base n) cfg.ignoreExts cfg.includePats
          cfg.excludePats then []
       else [(joinRel base n, rr)]) ++ specCont cfg rest base depth := by
  rw [specCont.eq_def]
  simp [fsName, h]

theorem specTree_nil (cfg : Config) (base : String) (depth : Nat) :
    specTree cfg [] base depth = [] := by
  rw [specTree.eq_def]

theorem specTree_skip {cfg : Config} {e : FSEntry} {base : String}
    (rest : List FSEntry) (depth : Nat)
    (h : should_skip_tree (fsName e) (joinRel base (fsName e)) cfg.patterns
      cfg.includeHidden = true) :
    specTree cfg (e :: rest) base depth = specTree cfg rest base depth := by
  rw [specTree.eq_def]
  simp [h]

theorem specTree_dir {cfg : Config} {n : String} {b : Bool} {cs : List FSEntry}
    {base : String} (rest : List FSEntry) (depth : Nat)
    (h : should_skip_tree n (joinRel base n) cfg.patterns cfg.includeHidden = false) :
    specTree cfg (.dir n b cs :: rest) base depth =
      Entry.dir n
        (if depthExceeded cfg.maxDepth (depth + 1) || !b then []
         else specTree cfg cs (joinRel base n) (depth + 1)) ::
        specTree cfg rest base depth := by
  rw [specTree.eq_def]
  simp [fsName, h]

theorem specTree_file {cfg : Config} {n : String} {rr : Option String}
    {base : String} (rest : List FSEntry) (depth : Nat)
    (h : should_skip_tree n (joinRel base n) cfg.patterns cfg.includeHidden = false) :
    specTree cfg (.file n rr :: rest) base depth =
      Entry.file n (joinRel base n) :: specTree cfg rest base depth := by
  rw [specTree.eq_def]
  simp [fsName, h]

theorem scanGo_nil (cfg : Config) (base : String) (depth : Nat) (c : CMap) :
    scanGo cfg [] base depth c = ([], c) := by
  rw [scanGo.eq_def]

theorem scanGo_skip {cfg : Config} {e : FSEntry} {base : String}
    (rest : List FSEntry) (depth : Nat) (c : CMap)
    (h : should_skip_tree (fsName e) (joinRel base (fsName e)) cfg.patterns
      cfg.includeHidden = true) :
    scanGo cfg (e :: rest) base depth c = scanGo cfg rest base depth c := by
  rw [scanGo.eq_def]
  simp [h]

theorem scanGo_dir_cut {cfg : Config} {n : String} {b : Bool} {cs : List FSEntry}
    {base : String} (rest : List FSEntry) (depth : Nat) (c : CMap)
    (h : should_skip_tree n (joinRel base n) cfg.patterns cfg.includeHidden = false)
    (hcut : depthExceeded cfg.maxDepth (depth + 1) = true ∨ b = false) :
    scanGo cfg (.dir n b cs :: rest) base depth c =
      (Entry.dir n [] :: (scanGo cfg rest base depth c).1,
        (scanGo cfg rest base depth c).2) := by
  rw [scanGo.eq_def]
  rcases hcut with hd | hb
  · simp [fsName, h, hd]
  · simp [fsName, h, hb]

theorem scanGo_dir_go {cfg : Config} {n : String} {b : Bool} {cs : List FSEntry}
    {base : String} (rest : List FSEntry) (depth : Nat) (c : CMap)
    (h : should_skip_tree n (joinRel base n) cfg.patterns cfg.includeHidden = false)
    (hd : depthExceeded cfg.maxDepth (depth + 1) = false) (hb : b = true) :
    scanGo cfg (.dir n b cs :: rest) base depth c =
      (Entry.dir n (scanGo cfg cs (joinRel base n) (depth + 1) c).1 ::
        (scanGo cfg rest base depth
          (scanGo cfg cs (joinRel base n) (depth + 1) c).2).1,
       (scanGo cfg rest base depth
          (scanGo cfg cs (joinRel base n) (depth + 1) c).2).2) := by
  rw [scanGo.eq_def]
  simp [fsName, h, hd, hb]

theorem scanGo_file_skipc {cfg : Config} {n : String} {rr : Option String}
    {base : String} (rest : List FSEntry) (depth : Nat) (c : CMap)
    (h : should_skip_tree n (joinRel base n) cfg.patterns cfg.includeHidden = false)
    (hsc : should_skip_content n (joinRel base n) cfg.ignoreExts cfg.includePats
      cfg.excludePats = true) :
    scanGo cfg (.file n rr :: rest) base depth c =
      (Entry.file n (joinRel base n) :: (scanGo cfg rest base depth c).1,
        (scanGo cfg rest base depth c).2) := by
  rw [scanGo.eq_def]
  simp [fsName, h, hsc]

theorem scanGo_file_read {cfg : Config} {n : String} {rr : Option String}
    {base : String} (rest : List FSEntry) (depth : Nat) (c : CMap)
    (h : should_skip_tree n (joinRel base n) cfg.patterns cfg.includeHidden = false)
    (hsc : should_skip_content n (joinRel base n) cfg.ignoreExts cfg.includePats
      cfg.excludePats = false) :
    scanGo cfg (.file n rr :: rest) base depth c =
      (Entry.file n (joinRel base n) ::
        (scanGo cfg rest base depth (dictInsert c (joinRel base n) rr)).1,
       (scanGo cfg rest base depth (dictInsert c (joinRel base n) rr)).2) := by
  rw [scanGo.eq_def]
  simp [fsName, h, hsc]

theorem sortFS_file (n : String) (c : Option String) :
    sortFS (.file n c) = .file n c := by
  rw [sortFS.eq_def]

theorem sortFS_dir (n : String) (b : Bool) (cs : List FSEntry) :
    sortFS (.dir n b cs) = .dir n b (sortByName (cs.map sortFS)) := by
  rw [sortFS.eq_def]
  simp [List.attach_map_val]

theorem filesOf_nil : filesOf [] = [] := by rw [filesOf]

theorem filesOf_dir (n : String) (ch rest : List Entry) :
    filesOf (.dir n ch :: rest) = filesOf ch ++ filesOf rest := by rw [filesOf]

theorem filesOf_file (n p : String) (rest : List Entry) :
    filesOf (.file n p :: rest) = (n, p) :: filesOf rest := by rw [filesOf]

/-! ## Contents-dict helper lemmas -/

theorem wfSibs_mem {l : List FSEntry} {e : FSEntry} (h : wfSibs l = true)
    (he : e ∈ l) : wfFS e = true := by
  unfold wfSibs at h
  simp at h
  exact h.2 e he

theorem keysOf_append (a b : CMap) : keysOf (a ++ b) = keysOf a ++ keysOf b :=
  List.map_append _ _ _

theorem mem_keysOf {m : CMap} {p : String} : p ∈ keysOf m ↔ ∃ v, (p, v) ∈ m := by
  unfold keysOf
  constructor
  · intro h
    obtain ⟨kv, hkv, hEq⟩ := List.mem_map.mp h
    exact ⟨kv.2, by rw [show (p, kv.2) = kv from Prod.ext hEq.symm rfl]; exact hkv⟩
  · rintro ⟨v, hv⟩
    exact List.mem_map.mpr ⟨(p, v), hv, rfl⟩

theorem dictInsert_fresh {m : CMap} {k : String} {v : Option String}
    (h : k ∉ keysOf m) : dictInsert m k v = m ++ [(k, v)] := by
  unfold dictInsert
  rw [if_neg]
  intro hany
  rw [List.any_eq_true] at hany
  obtain ⟨kv, hkv, hbeq⟩ := hany
  rw [beq_iff_eq] at hbeq
  exact h (mem_keysOf.mpr ⟨kv.2,
    by rw [show (k, kv.2) = kv from Prod.ext hbeq.symm rfl]; exact hkv⟩)

/-! ## Every inserted key lies under the entry that produced it -/

theorem specCont_newKey (cfg : Config) (es : List FSEntry) (base : String) (depth : Nat) :
    wfSibs es = true →
    ∀ kv ∈ specCont cfg es base depth,
      ∃ e ∈ es, underDir (joinRel base (fsName e)) kv.1 := by
  induction es, base, depth using specCont.induct cfg with
  | case1 base depth =>
    intro _ kv hkv
    simp [specCont_nil] at hkv
  | case2 e rest base depth _nm _rel hskip ih =>
    intro hwf kv hkv
    rw [specCont_skip rest depth hskip] at hkv
    obtain ⟨e', he', hu⟩ := ih (wfSibs_cons hwf).2.1 kv hkv
    exact ⟨e', List.mem_cons_of_mem e he', hu⟩
  | case3 rest base depth name listable children _nm _rel hskip ihch ihrest =>
    intro hwf kv hkv
    have hskip' : should_skip_tree name (joinRel base name) cfg.patterns
        cfg.includeHidden = false := Bool.eq_false_iff.mpr hskip
    rw [specCont_dir rest depth hskip'] at hkv
    rw [List.mem_append] at hkv
    obtain ⟨hwfe, hwfrest, -⟩ := wfSibs_cons hwf
    rcases hkv with hkv | hkv
    · split at hkv
      · simp at hkv
      · obtain ⟨ce, hce, hu⟩ := ihch (wfFS_dir hwfe).2 kv hkv
        refine ⟨FSEntry.dir name listable children, List.mem_cons_self _ _, ?_⟩
        exact underDir_of_below (wfFS_validName hwfe) rfl hu
    · obtain ⟨e', he', hu⟩ := ihrest hwfrest kv hkv
      exact ⟨e', List.mem_cons_of_mem _ he', hu⟩
  | case4 rest base depth name readResult _nm _rel hskip ihrest =>
    intro hwf kv hkv
    have hskip' : should_skip_tree name (joinRel base name) cfg.patterns
        cfg.includeHidden = false := Bool.eq_false_iff.mpr hskip
    rw [specCont_file rest depth hskip'] at hkv
    rw [List.mem_append] at hkv
    obtain ⟨hwfe, hwfrest, -⟩ := wfSibs_cons hwf
    rcases hkv with hkv | hkv
    · split at hkv
      · simp at hkv
      · simp at hkv
        refine ⟨FSEntry.file name readResult, List.mem_cons_self _ _, ?_⟩
        subst hkv
        left
        rfl
    · obtain ⟨e', he', hu⟩ := ihrest hwfrest kv hkv
      exact ⟨e', List.mem_cons_of_mem _ he', hu⟩

theorem specTree_files (cfg : Config) (es : List FSEntry) (base : String) (depth : Nat) :
    wfSibs es = true →
    ∀ np ∈ filesOf (specTree cfg es base depth),
      ∃ e ∈ es, underDir (joinRel base (fsName e)) np.2 := by
  induction es, base, depth using specTree.induct cfg with
  | case1 base depth =>
    intro _ np hnp
    simp [specTree_nil, filesOf_nil] at hnp
  | case2 e rest base depth _nm _rel hskip ih =>
    intro hwf np hnp
    rw [specTree_skip rest depth hskip] at hnp
    obtain ⟨e', he', hu⟩ := ih (wfSibs_cons hwf).2.1 np hnp
    exact ⟨e', List.mem_cons_of_mem e he', hu⟩
  | case3 rest base depth name listable children _nm _rel hskip ihch ihrest =>
    intro hwf np hnp
    have hskip' : should_skip_tree name (joinRel base name) cfg.patterns
        cfg.includeHidden = false := Bool.eq_false_iff.mpr hskip
    rw [specTree_dir rest depth hskip'] at hnp
    rw [filesOf_dir, List.mem_append] at hnp
    obtain ⟨hwfe, hwfrest, -⟩ := wfSibs_cons hwf
    rcases hnp with hnp | hnp
    · split at hnp
      · simp [filesOf_nil] at hnp
      · obtain ⟨ce, hce, hu⟩ := ihch (wfFS_dir hwfe).2 np hnp
        refine ⟨FSEntry.dir name listable children, List.mem_cons_self _ _, ?_⟩
        exact underDir_of_below (wfFS_validName hwfe) rfl hu
    · obtain ⟨e', he', hu⟩ := ihrest hwfrest np hnp
      exact ⟨e', List.mem_cons_of_mem _ he', hu⟩
  | case4 rest base depth name readResult _nm _rel hskip ihrest =>
    intro hwf np hnp
    have hskip' : should_skip_tree name (joinRel base name) cfg.patterns
        cfg.includeHidden = false := Bool.eq_false_iff.mpr hskip
    rw [specTree_file rest depth hskip'] at hnp
    rw [filesOf_file] at hnp
    obtain ⟨hwfe, hwfrest, -⟩ := wfSibs_cons hwf
    rcases List.mem_cons.mp hnp with hnp | hnp
    · refine ⟨FSEntry.file name readResult, List.mem_cons_self _ _, ?_⟩
      rw [hnp]
      left
      rfl
    · obtain ⟨e', he', hu⟩ := ihrest hwfrest np hnp
      exact ⟨e', List.mem_cons_of_mem _ he', hu⟩

/-! ## Content keys against tree file entries -/

theorem spec_file_iff (cfg : Config) (es : List FSEntry) (base : String) (depth : Nat) :
    wfSibs es = true →
    ∀ n p, (n, p) ∈ filesOf (specTree cfg es base depth) →
      (p ∈ keysOf (specCont cfg es base depth) ↔
        should_skip_content n p cfg.ignoreExts cfg.includePats cfg.excludePats = false) := by
  induction es, base, depth using specTree.induct cfg with
  | case1 base depth =>
    intro _ n p hnp
    simp [specTree_nil, filesOf_nil] at hnp
  | case2 e rest base depth _nm _rel hskip ih =>
    intro hwf n p hnp
    rw [specTree_skip rest depth hskip] at hnp
    rw [specCont_skip rest depth hskip]
    exact ih (wfSibs_cons hwf).2.1 n p hnp
  | case3 rest base depth name listable children _nm _rel hskip ihch ihrest =>
    intro hwf n p hnp
    have hskip' : should_skip_tree name (joinRel base name) cfg.patterns
        cfg.includeHidden = false := Bool.eq_false_iff.mpr hskip
    rw [specTree_dir rest depth hskip'] at hnp
    rw [specCont_dir rest depth hskip']
    rw [filesOf_dir, List.mem_append] at hnp
    obtain ⟨hwfe, hwfrest, hne⟩ := wfSibs_cons hwf
    rw [keysOf_append, List.mem_append]
    rcases hnp with hnp | hnp
    · split at hnp
      · simp [filesOf_nil] at hnp
      · rename_i hd
        obtain ⟨ce, hce, huc⟩ :=
          specTree_files cfg children (joinRel base name) (depth + 1)
            (wfFS_dir hwfe).2 (n, p) hnp
        have hup : underDir (joinRel base name) p :=
          underDir_of_below (wfFS_validName hwfe) rfl huc
        have hnotrest : p ∉ keysOf (specCont cfg rest base depth) := by
          intro hmem
          obtain ⟨v, hv⟩ := mem_keysOf.mp hmem
          obtain ⟨e', he', hu'⟩ := specCont_newKey cfg rest base depth hwfrest (p, v) hv
          exact underDir_disjoint (wfFS_validName (wfSibs_mem hwfrest he'))
            (wfFS_validName hwfe) (hne e' he') hu' hup
        rw [if_neg hd]
        constructor
        · rintro (h | h)
          · exact (ihch (wfFS_dir hwfe).2 n p hnp).mp h
          · exact absurd h hnotrest
        · intro h
          exact Or.inl ((ihch (wfFS_dir hwfe).2 n p hnp).mpr h)
    · obtain ⟨e', he', hu'⟩ := specTree_files cfg rest base depth hwfrest (n, p) hnp
      have hnotch : p ∉ keysOf
          (if depthExceeded cfg.maxDepth (depth + 1) || !listable then []
           else specCont cfg children (joinRel base name) (depth + 1)) := by
        split
        · simp [keysOf]
        · intro hmem
          obtain ⟨v, hv⟩ := mem_keysOf.mp hmem
          obtain ⟨ce, hce, huc⟩ :=
            specCont_newKey cfg children (joinRel base name) (depth + 1)
              (wfFS_dir hwfe).2 (p, v) hv
          have hup : underDir (joinRel base name) p :=
            underDir_of_below (wfFS_validName hwfe) rfl huc
          exact underDir_disjoint (wfFS_validName hwfe)
            (wfFS_validName (wfSibs_mem hwfrest he')) (Ne.symm (hne e' he')) hup hu'
      constructor
      · rintro (h | h)
        · exact absurd h hnotch
        · exact (ihrest hwfrest n p hnp).mp h
      · intro h
        exact Or.inr ((ihrest hwfrest n p hnp).mpr h)
  | case4 rest base depth name readResult _nm _rel hskip ihrest =>
    intro hwf n p hnp
    have hskip' : should_skip_tree name (joinRel base name) cfg.patterns
        cfg.includeHidden = false := Bool.eq_false_iff.mpr hskip
    rw [specTree_file rest depth hskip'] at hnp
    rw [specCont_file rest depth hskip']
    rw [filesOf_file] at hnp
    obtain ⟨hwfe, hwfrest, hne⟩ := wfSibs_cons hwf
    rw [keysOf_append, List.mem_append]
    rcases List.mem_cons.mp hnp with heq | hnp
    · rw [Prod.ext_iff] at heq
      obtain ⟨hn, hp⟩ := heq
      simp only at hn hp
      subst hn
      subst hp
      have hnotrest : joinRel base n ∉ keysOf (specCont cfg rest base depth) := by
        intro hmem
        obtain ⟨v, hv⟩ := mem_keysOf.mp hmem
        obtain ⟨e', he', hu'⟩ :=
          specCont_newKey cfg rest base depth hwfrest (joinRel base n, v) hv
        exact underDir_disjoint (wfFS_validName (wfSibs_mem hwfrest he'))
          (wfFS_validName hwfe) (hne e' he') hu' (Or.inl rfl)
      split
      · rename_i hsc
        constructor
        · rintro (h | h)
          · simp [keysOf] at h
          · exact absurd h hnotrest
        · intro h
          rw [hsc] at h
          cases h
      · rename_i hsc
        constructor
        · intro _
          exact Bool.eq_false_iff.mpr hsc
        · intro _
          left
          simp [keysOf]
    · obtain ⟨e', he', hu'⟩ := specTree_files cfg rest base depth hwfrest (n, p) hnp
      have hnothead : p ∉ keysOf
          (if should_skip_content name (joinRel base name) cfg.ignoreExts
              cfg.includePats cfg.excludePats then []
           else [(joinRel base name, readResult)]) := by
        split
        · simp [keysOf]
        · intro hmem
          simp [keysOf] at hmem
          subst hmem
          exact underDir_disjoint (wfFS_validName hwfe)
            (wfFS_validName (wfSibs_mem hwfrest he')) (Ne.symm (hne e' he'))
            (Or.inl rfl) hu'
      constructor
      · rintro (h | h)
        · exact absurd h hnothead
        · exact (ihrest hwfrest n p hnp).mp h
      · intro h
        exact Or.inr ((ihrest hwfrest n p hnp).mpr h)

theorem specCont_sub_files (cfg : Config) (es : List FSEntry) (base : String) (depth : Nat) :
    ∀ kv ∈ specCont cfg es base depth,
      ∃ n, (n, kv.1) ∈ filesOf (specTree cfg es base depth) ∧
        should_skip_content n kv.1 cfg.ignoreExts cfg.includePats cfg.excludePats = false := by
  induction es, base, depth using specCont.induct cfg with
  | case1 base depth =>
    intro kv hkv
    simp [specCont_nil] at hkv
  | case2 e rest base depth _nm _rel hskip ih =>
    intro kv hkv
    rw [specCont_skip rest depth hskip] at hkv
    rw [specTree_skip rest depth hskip]
    exact ih kv hkv
  | case3 rest base depth name listable children _nm _rel hskip ihch ihrest =>
    intro kv hkv
    have hskip' : should_skip_tree name (joinRel base name) cfg.patterns
        cfg.includeHidden = false := Bool.eq_false_iff.mpr hskip
    rw [specCont_dir rest depth hskip'] at hkv
    rw [specTree_dir rest depth hskip', filesOf_dir]
    rw [List.mem_append] at hkv
    rcases hkv with hkv | hkv
    · split at hkv
      · simp at hkv
      · rename_i hd
        obtain ⟨n, hn, hsc⟩ := ihch kv hkv
        rw [if_neg hd]
        exact ⟨n, List.mem_append_left _ hn, hsc⟩
    · obtain ⟨n, hn, hsc⟩ := ihrest kv hkv
      exact ⟨n, List.mem_append_right _ hn, hsc⟩
  | case4 rest base depth name readResult _nm _rel hskip ihrest =>
    intro kv hkv
    have hskip' : should_skip_tree name (joinRel base name) cfg.patterns
        cfg.includeHidden = false := Bool.eq_false_iff.mpr hskip
    rw [specCont_file rest depth hskip'] at hkv
    rw [specTree_file rest depth hskip', filesOf_file]
    rw [List.mem_append] at hkv
    rcases hkv with hkv | hkv
    · split at hkv
      · simp at hkv
      · rename_i hsc
        simp at hkv
        subst hkv
        exact ⟨name, List.mem_cons_self _ _, Bool.eq_false_iff.mpr hsc⟩
    · obtain ⟨n, hn, hsc⟩ := ihrest kv hkv
      exact ⟨n, List.mem_cons_of_mem _ hn, hsc⟩

/-! ## The scanner equals its accumulator-free form -/

theorem scanGo_spec (cfg : Config) (es : List FSEntry) (base : String) (depth : Nat) :
    wfSibs es = true →
    ∀ c : CMap, (∀ kv ∈ specCont cfg es base depth, kv.1 ∉ keysOf c) →
      scanGo cfg es base depth c =
        (specTree cfg es base depth, c ++ specCont cfg es base depth) := by
  induction es, base, depth using specCont.induct cfg with
  | case1 base depth =>
    intro _ c _
    simp [scanGo_nil, specTree_nil, specCont_nil]
  | case2 e rest base depth _nm _rel hskip ih =>
    intro hwf c hfresh
    rw [scanGo_skip rest depth c hskip, specTree_skip rest depth hskip,
      specCont_skip rest depth hskip]
    rw [specCont_skip rest depth hskip] at hfresh
    exact ih (wfSibs_cons hwf).2.1 c hfresh
  | case3 rest base depth name listable children _nm _rel hskip ihch ihrest =>
    intro hwf c hfresh
    have hskip' : should_skip_tree name (joinRel base name) cfg.patterns
        cfg.includeHidden = false := Bool.eq_false_iff.mpr hskip
    obtain ⟨hwfe, hwfrest, hne⟩ := wfSibs_cons hwf
    rw [specTree_dir rest depth hskip', specCont_dir rest depth hskip']
    rw [specCont_dir rest depth hskip'] at hfresh
    by_cases hcut : (depthExceeded cfg.maxDepth (depth + 1) || !listable) = true
    · have hcut' : depthExceeded cfg.maxDepth (depth + 1) = true ∨ listable = false := by
        rcases Bool.or_eq_true_iff.mp hcut with h | h
        · exact Or.inl h
        · exact Or.inr (by simpa using h)
      rw [scanGo_dir_cut rest depth c hskip' hcut']
      simp only [hcut, if_true] at hfresh ⊢
      have hrest := ihrest hwfrest c (by simpa using hfresh)
      rw [hrest]
      simp
    · have hcutf : (depthExceeded cfg.maxDepth (depth + 1) || !listable) = false :=
        Bool.eq_false_iff.mpr hcut
      obtain ⟨hd, hl⟩ := Bool.or_eq_false_iff.mp hcutf
      have hb : listable = true := by simpa using hl
      rw [scanGo_dir_go rest depth c hskip' hd hb]
      simp only [hcutf, Bool.false_eq_true, if_false] at hfresh ⊢
      have hchfresh : ∀ kv ∈ specCont cfg children (joinRel base name) (depth + 1),
          kv.1 ∉ keysOf c := by
        intro kv hkv
        exact hfresh kv (List.mem_append_left _ hkv)
      have hch := ihch (wfFS_dir hwfe).2 c hchfresh
      simp only [show _rel = joinRel base name from rfl] at hch
      rw [hch]
      have hrestfresh : ∀ kv ∈ specCont cfg rest base depth,
          kv.1 ∉ keysOf (c ++ specCont cfg children (joinRel base name) (depth + 1)) := by
        intro kv hkv
        rw [keysOf_append, List.mem_append]
        rintro (hmem | hmem)
        · exact hfresh kv (List.mem_append_right _ hkv) hmem
        · obtain ⟨e', he', hu'⟩ := specCont_newKey cfg rest base depth hwfrest kv hkv
          obtain ⟨v, hv⟩ := mem_keysOf.mp hmem
          obtain ⟨ce, hce, huc⟩ := specCont_newKey cfg children (joinRel base name)
            (depth + 1) (wfFS_dir hwfe).2 (kv.1, v) hv
          exact underDir_disjoint (wfFS_validName (wfSibs_mem hwfrest he'))
            (wfFS_validName hwfe) (hne e' he') hu'
            (underDir_of_below (wfFS_validName hwfe) rfl huc)
      have hrest := ihrest hwfrest
        (c ++ specCont cfg children (joinRel base name) (depth + 1)) hrestfresh
      rw [hrest]
      simp [List.append_assoc]
  | case4 rest base depth name readResult _nm _rel hskip ihrest =>
    intro hwf c hfresh
    have hskip' : should_skip_tree name (joinRel base name) cfg.patterns
        cfg.includeHidden = false := Bool.eq_false_iff.mpr hskip
    obtain ⟨hwfe, hwfrest, hne⟩ := wfSibs_cons hwf
    rw [specTree_file rest depth hskip', specCont_file rest depth hskip']
    rw [specCont_file rest depth hskip'] at hfresh
    by_cases hsc : should_skip_content name (joinRel base name) cfg.ignoreExts
        cfg.includePats cfg.excludePats = true
    · rw [scanGo_file_skipc rest depth c hskip' hsc]
      simp only [hsc, if_true] at hfresh ⊢
      have hrest := ihrest hwfrest c (by simpa using hfresh)
      rw [hrest]
      simp
    · have hscf : should_skip_content name (joinRel base name) cfg.ignoreExts
          cfg.includePats cfg.excludePats = false := Bool.eq_false_iff.mpr hsc
      rw [scanGo_file_read rest depth c hskip' hscf]
      simp only [hscf, Bool.false_eq_true, if_false] at hfresh ⊢
      have hkey : joinRel base name ∉ keysOf c :=
        hfresh (joinRel base name, readResult) (List.mem_append_left _ (by simp))
      rw [dictInsert_fresh hkey]
      have hrestfresh : ∀ kv ∈ specCont cfg rest base depth,
          kv.1 ∉ keysOf (c ++ [(joinRel base name, readResult)]) := by
        intro kv hkv
        rw [keysOf_append, List.mem_append]
        rintro (hmem | hmem)
        · exact hfresh kv (List.mem_append_right _ hkv) hmem
        · simp [keysOf] at hmem
          obtain ⟨e', he', hu'⟩ := specCont_newKey cfg rest base depth hwfrest kv hkv
          exact underDir_disjoint (wfFS_validName (wfSibs_mem hwfrest he'))
            (wfFS_validName hwfe) (hne e' he') hu' (by rw [hmem] ; exact Or.inl rfl)
      have hrest := ihrest hwfrest (c ++ [(joinRel base name, readResult)]) hrestfresh
      rw [hrest]
      simp [List.append_assoc]

/-! ## Tree output is independent of the contents accumulator -/

theorem scanGo_fst (cfg : Config) (es : List FSEntry) (base : String) (depth : Nat) :
    ∀ c, (scanGo cfg es base depth c).1 = specTree cfg es base depth := by
  induction es, base, depth using specTree.induct cfg with
  | case1 base depth =>
    intro c
    simp [scanGo_nil, specTree_nil]
  | case2 e rest base depth _nm _rel hskip ih =>
    intro c
    rw [scanGo_skip rest depth c hskip, specTree_skip rest depth hskip]
    exact ih c
  | case3 rest base depth name listable children _nm _rel hskip ihch ihrest =>
    intro c
    have hskip' : should_skip_tree name (joinRel base name) cfg.patterns
        cfg.includeHidden = false := Bool.eq_false_iff.mpr hskip
    rw [specTree_dir rest depth hskip']
    by_cases hd : depthExceeded cfg.maxDepth (depth + 1) = true
    · rw [scanGo_dir_cut rest depth c hskip' (Or.inl hd)]
      simp [hd, ihrest c]
    · have hdf : depthExceeded cfg.maxDepth (depth + 1) = false := Bool.eq_false_iff.mpr hd
      by_cases hb : listable = true
      · rw [scanGo_dir_go rest depth c hskip' hdf hb]
        have hch := ihch c
        simp only [show _rel = joinRel base name from rfl] at hch
        simp [hdf, hb, hch, ihrest]
      · have hbf : listable = false := Bool.eq_false_iff.mpr hb
        rw [scanGo_dir_cut rest depth c hskip' (Or.inr hbf)]
        simp [hdf, hbf, ihrest c]
  | case4 rest base depth name readResult _nm _rel hskip ihrest =>
    intro c
    have hskip' : should_skip_tree name (joinRel base name) cfg.patterns
        cfg.includeHidden = false := Bool.eq_false_iff.mpr hskip
    rw [specTree_file rest depth hskip']
    by_cases hsc : should_skip_content name (joinRel base name) cfg.ignoreExts
        cfg.includePats cfg.excludePats = true
    · rw [scanGo_file_skipc rest depth c hskip' hsc]
      simp [ihrest]
    · rw [scanGo_file_read rest depth c hskip' (Bool.eq_false_iff.mpr hsc)]
      simp [ihrest]

/-- Sorting relation on sibling entries. -/
def nameLE (a b : FSEntry) : Prop := fsName a ≤ fsName b

theorem insertByName_perm (e : FSEntry) (l : List FSEntry) :
    (insertByName e l).Perm (e :: l) := by
  induction l with
  | nil => simp [insertByName]
  | cons x xs ih =>
    rw [insertByName]
    split
    · exact ((ih.cons x).trans (List.Perm.swap e x xs))
    · exact List.Perm.refl _

theorem sortByName_perm (l : List FSEntry) : (sortByName l).Perm l := by
  induction l with
  | nil => simp [sortByName]
  | cons e rest ih =>
    rw [sortByName]
    exact (insertByName_perm e (sortByName rest)).trans (ih.cons e)

theorem insertByName_sorted {l : List FSEntry} (e : FSEntry)
    (h : l.Pairwise nameLE) : (insertByName e l).Pairwise nameLE := by
  induction l with
  | nil => simp [insertByName, List.Pairwise]
  | cons x xs ih =>
    rw [insertByName]
    split
    · rename_i hlt
      rw [decide_eq_true_iff] at hlt
      have hx : ∀ y ∈ insertByName e xs, nameLE x y := by
        intro y hy
        rcases List.mem_cons.mp ((insertByName_perm e xs).mem_iff.mp hy) with rfl | hmem
        · exact le_of_lt hlt
        · exact List.rel_of_pairwise_cons h hmem
      exact List.Pairwise.cons hx (ih (List.Pairwise.of_cons h))
    · rename_i hnlt
      rw [decide_eq_true_iff] at hnlt
      have hex : nameLE e x := le_of_not_lt hnlt
      refine List.Pairwise.cons ?_ h
      intro y hy
      rcases List.mem_cons.mp hy with rfl | hmem
      · exact hex
      · exact le_trans hex (List.rel_of_pairwise_cons h hmem)

theorem sortByName_sorted (l : List FSEntry) : (sortByName l).Pairwise nameLE := by
  induction l with
  | nil => simp [sortByName, List.Pairwise]
  | cons e rest ih =>
    rw [sortByName]
    exact insertByName_sorted e ih

theorem sorted_nodup_unique :
    ∀ {l1 l2 : List FSEntry}, l1.Pairwise nameLE → l2.Pairwise nameLE →
      l1.Perm l2 → (l1.map fsName).Nodup → l1 = l2 := by
  intro l1
  induction l1 with
  | nil =>
    intro l2 _ _ hperm _
    exact List.Perm.nil_eq hperm
  | cons h1 t1 ih =>
    intro l2 hs1 hs2 hperm hnd
    cases l2 with
    | nil => exact absurd hperm.symm (by simp)
    | cons h2 t2 =>
      have hh : h1 = h2 := by
        by_contra hne
        have h1mem : h1 ∈ h2 :: t2 := hperm.subset (List.mem_cons_self _ _)
        have h2mem : h2 ∈ h1 :: t1 := hperm.symm.subset (List.mem_cons_self _ _)
        have h1t2 : h1 ∈ t2 := by
          rcases List.mem_cons.mp h1mem with h | h
          · exact absurd h hne
          · exact h
        have h2t1 : h2 ∈ t1 := by
          rcases List.mem_cons.mp h2mem with h | h
          · exact absurd h.symm hne
          · exact h
        have hle12 : nameLE h1 h2 := List.rel_of_pairwise_cons hs1 h2t1
        have hle21 : nameLE h2 h1 := List.rel_of_pairwise_cons hs2 h1t2
        have hnames : fsName h1 = fsName h2 := le_antisymm hle12 hle21
        rw [List.map_cons, List.nodup_cons] at hnd
        exact hnd.1 (hnames ▸ List.mem_map_of_mem fsName h2t1)
      subst hh
      have htperm : t1.Perm t2 := hperm.cons_inv
      rw [List.map_cons, List.nodup_cons] at hnd
      rw [ih (List.Pairwise.of_cons hs1) (List.Pairwise.of_cons hs2) htperm hnd.2]

theorem distinctStrs_iff (l : List String) : distinctStrs l = true ↔ l.Nodup := by
  induction l with
  | nil => simp [distinctStrs]
  | cons s rest ih =>
    rw [distinctStrs]
    simp [List.nodup_cons, ih]

theorem wfFS_file_eq (n : String) (r : Option String) :
    wfFS (.file n r) = validName n := by
  rw [wfFS]

theorem attach_all_eq (cs : List FSEntry) :
    (cs.attach.all fun x => wfFS x.1) = cs.all (fun e => wfFS e) := by
  rw [Bool.eq_iff_iff, List.all_eq_true, List.all_eq_true]
  constructor
  · intro h e he
    exact h ⟨e, he⟩ (List.mem_attach cs ⟨e, he⟩)
  · intro h x _
    exact h x.1 x.2

theorem wfFS_dir_eq (n : String) (b : Bool) (cs : List FSEntry) :
    wfFS (.dir n b cs) =
      (validName n && distinctStrs (cs.map fsName) && cs.all (fun e => wfFS e)) := by
  rw [wfFS, attach_all_eq]

theorem fsName_sortFS (e : FSEntry) : fsName (sortFS e) = fsName e := by
  cases e with
  | file n c => rw [sortFS_file]
  | dir n b cs => rw [sortFS_dir] ; rfl

theorem sortFS_names (cs : List FSEntry) :
    ((sortByName (cs.map sortFS)).map fsName).Perm (cs.map fsName) := by
  have h1 := (sortByName_perm (cs.map sortFS)).map fsName
  have h2 : (cs.map sortFS).map fsName = cs.map fsName := by
    rw [List.map_map]
    exact List.map_congr_left (fun e _ => fsName_sortFS e)
  rw [h2] at h1
  exact h1

theorem wfFS_sortFS : ∀ {e : FSEntry}, wfFS e = true → wfFS (sortFS e) = true := by
  intro e
  induction e using wfFS.induct with
  | case1 n r =>
    intro h
    rw [sortFS_file]
    exact h
  | case2 n b cs ih =>
    intro h
    rw [sortFS_dir, wfFS_dir_eq]
    rw [wfFS_dir_eq] at h
    simp at h ⊢
    obtain ⟨⟨hv, hd⟩, hall⟩ := h
    refine ⟨⟨hv, ?_⟩, ?_⟩
    · rw [distinctStrs_iff] at hd ⊢
      exact ((sortFS_names cs).nodup_iff).mpr hd
    · intro e' he'
      have hmem : e' ∈ cs.map sortFS := (sortByName_perm (cs.map sortFS)).subset he'
      obtain ⟨g, hg, rfl⟩ := List.mem_map.mp hmem
      exact ih ⟨g, hg⟩ (hall g hg)

theorem wfSibs_iff (l : List FSEntry) :
    wfSibs l = true ↔ (l.map fsName).Nodup ∧ ∀ e ∈ l, wfFS e = true := by
  unfold wfSibs
  simp [distinctStrs_iff]

theorem sortFSList_wf {l : List FSEntry} (h : wfSibs l = true) :
    wfSibs (sortFSList l) = true := by
  rw [wfSibs_iff] at h ⊢
  obtain ⟨hnd, hall⟩ := h
  constructor
  · unfold sortFSList
    exact ((sortFS_names l).nodup_iff).mpr hnd
  · intro e' he'
    have hmem : e' ∈ l.map sortFS := (sortByName_perm (l.map sortFS)).subset he'
    obtain ⟨g, hg, rfl⟩ := List.mem_map.mp hmem
    exact wfFS_sortFS (hall g hg)

theorem scan_spec (cfg : Config) (l : List FSEntry) (hwf : wfSibs l = true)
    (hroot : depthExceeded cfg.maxDepth 0 = false) :
    scan cfg true l =
      (specTree cfg (sortFSList l) "" 0, specCont cfg (sortFSList l) "" 0) := by
  unfold scan
  rw [hroot]
  simp only [Bool.false_eq_true, if_false, Bool.not_true]
  have h := scanGo_spec cfg (sortFSList l) "" 0 (sortFSList_wf hwf) []
    (by intro kv _ hmem ; simp [keysOf] at hmem)
  simpa using h

/-! ## Entry point output phase (generalized variant) -/

/-- The `--format` choice of `export_code.py main`. -/
inductive OutFormat : Type where
  | text
  | markdown
  | json
  | yaml
deriving Repr, DecidableEq

/-- Observable outcome of the output phase of `main`: the `sys.exit` code
(if any), the lines printed to stderr, whether `open(args.output, 'w')`
was executed (creating or truncating that file), and what was written to
the selected sink. -/
structure MainResult : Type where
  exitCode : Option Int
  stderrLines : List String
  outputFileOpened : Bool
  written : Option String
deriving Repr, DecidableEq

/-- The stderr diagnostic of the yaml branch. -/
def YAML_ERROR : String := "Error: PyYAML not installed; YAML format unavailable."

/-- Lines 180-192 of `export_code.py main`:
`out = open(args.output, 'w', encoding='utf-8') if args.output else sys.stdout`
runs before the format dispatch, so a file output is created (truncated)
unconditionally; then the format branches run, the yaml branch checking
`YAML_AVAILABLE` and calling `sys.exit(1)` after printing to stderr.
The `json.dump` and `yaml.dump` serializer outputs are parameters (they
are external library functions). -/
def mainOutputPhase (yamlAvailable : Bool) (fmt : OutFormat)
    (outputPath : Option String) (tree : List Entry) (contents : CMap)
    (jsonDump yamlDump : String) : MainResult :=
  let opened := outputPath.isSome
  match fmt with
  | .text =>
    { exitCode := none, stderrLines := [], outputFileOpened := opened,
      written := some (render_text tree contents) }
  | .markdown =>
    { exitCode := none, stderrLines := [], outputFileOpened := opened,
      written := some (render_markdown tree contents) }
  | .json =>
    { exitCode := none, stderrLines := [], outputFileOpened := opened,
      written := some jsonDump }
  | .yaml =>
    if !yamlAvailable then
      { exitCode := some 1, stderrLines := [YAML_ERROR],
        outputFileOpened := opened, written := none }
    else
      { exitCode := none, stderrLines := [], outputFileOpened := opened,
        written := some yamlDump }

/-! ## Splitting a scan around one entry -/

theorem scanGo_append (cfg : Config) (ys : List FSEntry) (base : String) (depth : Nat) :
    ∀ (xs : List FSEntry) (c : CMap),
      scanGo cfg (xs ++ ys) base depth c =
        ((scanGo cfg xs base depth c).1 ++
            (scanGo cfg ys base depth (scanGo cfg xs base depth c).2).1,
          (scanGo cfg ys base depth (scanGo cfg xs base depth c).2).2) := by
  intro xs
  induction xs with
  | nil =>
    intro c
    simp [scanGo_nil]
  | cons e rest ih =>
    intro c
    rw [List.cons_append]
    by_cases hskip : should_skip_tree (fsName e) (joinRel base (fsName e))
        cfg.patterns cfg.includeHidden = true
    · rw [scanGo_skip (rest ++ ys) depth c hskip, scanGo_skip rest depth c hskip]
      exact ih c
    · have hskip' : should_skip_tree (fsName e) (joinRel base (fsName e))
          cfg.patterns cfg.includeHidden = false := Bool.eq_false_iff.mpr hskip
      cases e with
      | dir n b cs =>
        simp only [fsName] at hskip'
        by_cases hd : depthExceeded cfg.maxDepth (depth + 1) = true
        · rw [scanGo_dir_cut (rest ++ ys) depth c hskip' (Or.inl hd),
            scanGo_dir_cut rest depth c hskip' (Or.inl hd)]
          rw [ih c]
          simp
        · by_cases hb : b = true
          · rw [scanGo_dir_go (rest ++ ys) depth c hskip'
              (Bool.eq_false_iff.mpr hd) hb,
              scanGo_dir_go rest depth c hskip' (Bool.eq_false_iff.mpr hd) hb]
            rw [ih (scanGo cfg cs (joinRel base n) (depth + 1) c).2]
            simp
          · rw [scanGo_dir_cut (rest ++ ys) depth c hskip'
              (Or.inr (Bool.eq_false_iff.mpr hb)),
              scanGo_dir_cut rest depth c hskip' (Or.inr (Bool.eq_false_iff.mpr hb))]
            rw [ih c]
            simp
      | file n rr =>
        simp only [fsName] at hskip'
        by_cases hsc : should_skip_content n (joinRel base n) cfg.ignoreExts
            cfg.includePats cfg.excludePats = true
        · rw [scanGo_file_skipc (rest ++ ys) depth c hskip' hsc,
            scanGo_file_skipc rest depth c hskip' hsc]
          rw [ih c]
          simp
        · rw [scanGo_file_read (rest ++ ys) depth c hskip' (Bool.eq_false_iff.mpr hsc),
            scanGo_file_read rest depth c hskip' (Bool.eq_false_iff.mpr hsc)]
          rw [ih (dictInsert c (joinRel base n) rr)]
          simp

/-! ## Renderer unfolding and entry names -/

theorem renderTreeText_nil (ind : String) : renderTreeText [] ind = "" := by
  rw [renderTreeText]

theorem renderTreeText_dir (n : String) (ch rest : List Entry) (ind : String) :
    renderTreeText (.dir n ch :: rest) ind =
      ind ++ n ++ "/\n" ++ renderTreeText ch (ind ++ "    ") ++
        renderTreeText rest ind := by
  rw [renderTreeText]

theorem renderTreeText_file (n p : String) (rest : List Entry) (ind : String) :
    renderTreeText (.file n p :: rest) ind =
      ind ++ n ++ "\n" ++ renderTreeText rest ind := by
  rw [renderTreeText]

/-- Name stored in a tree node. -/
def entryName : Entry → String
  | .dir n _ => n
  | .file n _ => n

theorem specTree_names (cfg : Config) (es : List FSEntry) (base : String) (depth : Nat) :
    ∀ e ∈ specTree cfg es base depth, ∃ fe ∈ es, entryName e = fsName fe := by
  induction es, base, depth using specTree.induct cfg with
  | case1 base depth =>
    intro e he
    simp [specTree_nil] at he
  | case2 e rest base depth _nm _rel hskip ih =>
    intro x hx
    rw [specTree_skip rest depth hskip] at hx
    obtain ⟨fe, hfe, hn⟩ := ih x hx
    exact ⟨fe, List.mem_cons_of_mem _ hfe, hn⟩
  | case3 rest base depth name listable children _nm _rel hskip ihch ihrest =>
    intro x hx
    have hskip' : should_skip_tree name (joinRel base name) cfg.patterns
        cfg.includeHidden = false := Bool.eq_false_iff.mpr hskip
    rw [specTree_dir rest depth hskip'] at hx
    rcases List.mem_cons.mp hx with rfl | hx
    · exact ⟨FSEntry.dir name listable children, List.mem_cons_self _ _, rfl⟩
    · obtain ⟨fe, hfe, hn⟩ := ihrest x hx
      exact ⟨fe, List.mem_cons_of_mem _ hfe, hn⟩
  | case4 rest base depth name readResult _nm _rel hskip ihrest =>
    intro x hx
    have hskip' : should_skip_tree name (joinRel base name) cfg.patterns
        cfg.includeHidden = false := Bool.eq_false_iff.mpr hskip
    rw [specTree_file rest depth hskip'] at hx
    rcases List.mem_cons.mp hx with rfl | hx
    · exact ⟨FSEntry.file name readResult, List.mem_cons_self _ _, rfl⟩
    · obtain ⟨fe, hfe, hn⟩ := ihrest x hx
      exact ⟨fe, List.mem_cons_of_mem _ hfe, hn⟩

theorem sortFSList_names {l : List FSEntry} {e : FSEntry} (he : e ∈ sortFSList l) :
    ∃ g ∈ l, fsName e = fsName g := by
  have hmem : e ∈ l.map sortFS := (sortByName_perm (l.map sortFS)).subset he
  obtain ⟨g, hg, rfl⟩ := List.mem_map.mp hmem
  exact ⟨g, hg, fsName_sortFS g⟩

/-! ## Depth-zero scans -/

theorem specTree_depth0 (cfg : Config) (h : cfg.maxDepth = some 0) :
    ∀ (es : List FSEntry) (base : String) (depth : Nat), depth = 0 →
      ∀ e ∈ specTree cfg es base depth,
        (∀ nm ch, e = Entry.dir nm ch → ch = []) ∧
        (∀ nm p, e = Entry.file nm p → ∃ fe ∈ es, p = joinRel base (fsName fe)) := by
  intro es base depth
  induction es, base, depth using specTree.induct cfg with
  | case1 base depth =>
    intro _ e he
    simp [specTree_nil] at he
  | case2 e rest base depth _nm _rel hskip ih =>
    intro hd x hx
    rw [specTree_skip rest depth hskip] at hx
    obtain ⟨h1, h2⟩ := ih hd x hx
    refine ⟨h1, fun nm p hp => ?_⟩
    obtain ⟨fe, hfe, hpe⟩ := h2 nm p hp
    exact ⟨fe, List.mem_cons_of_mem _ hfe, hpe⟩
  | case3 rest base depth name listable children _nm _rel hskip ihch ihrest =>
    intro hd x hx
    subst hd
    have hskip' : should_skip_tree name (joinRel base name) cfg.patterns
        cfg.includeHidden = false := Bool.eq_false_iff.mpr hskip
    rw [specTree_dir rest 0 hskip'] at hx
    have hde : depthExceeded cfg.maxDepth (0 + 1) = true := by
      rw [h]
      decide
    rw [hde] at hx
    simp only [Bool.true_or, if_true] at hx
    rcases List.mem_cons.mp hx with rfl | hx
    · constructor
      · intro nm ch hEq
        cases hEq
        rfl
      · intro nm p hEq
        cases hEq
    · obtain ⟨h1, h2⟩ := ihrest rfl x hx
      refine ⟨h1, fun nm p hp => ?_⟩
      obtain ⟨fe, hfe, hpe⟩ := h2 nm p hp
      exact ⟨fe, List.mem_cons_of_mem _ hfe, hpe⟩
  | case4 rest base depth name readResult _nm _rel hskip ihrest =>
    intro hd x hx
    subst hd
    have hskip' : should_skip_tree name (joinRel base name) cfg.patterns
        cfg.includeHidden = false := Bool.eq_false_iff.mpr hskip
    rw [specTree_file rest 0 hskip'] at hx
    rcases List.mem_cons.mp hx with rfl | hx
    · constructor
      · intro nm ch hEq
        cases hEq
      · intro nm p hEq
        cases hEq
        exact ⟨FSEntry.file name readResult, List.mem_cons_self _ _, rfl⟩
    · obtain ⟨h1, h2⟩ := ihrest rfl x hx
      refine ⟨h1, fun nm p hp => ?_⟩
      obtain ⟨fe, hfe, hpe⟩ := h2 nm p hp
      exact ⟨fe, List.mem_cons_of_mem _ hfe, hpe⟩

theorem specCont_depth0 (cfg : Config) (h : cfg.maxDepth = some 0) :
    ∀ (es : List FSEntry) (base : String) (depth : Nat), depth = 0 →
      ∀ kv ∈ specCont cfg es base depth, ∃ fe ∈ es, kv.1 = joinRel base (fsName fe) := by
  intro es base depth
  induction es, base, depth using specCont.induct cfg with
  | case1 base depth =>
    intro _ kv hkv
    simp [specCont_nil] at hkv
  | case2 e rest base depth _nm _rel hskip ih =>
    intro hd kv hkv
    rw [specCont_skip rest depth hskip] at hkv
    obtain ⟨fe, hfe, hpe⟩ := ih hd kv hkv
    exact ⟨fe, List.mem_cons_of_mem _ hfe, hpe⟩
  | case3 rest base depth name listable children _nm _rel hskip ihch ihrest =>
    intro hd kv hkv
    subst hd
    have hskip' : should_skip_tree name (joinRel base name) cfg.patterns
        cfg.includeHidden = false := Bool.eq_false_iff.mpr hskip
    rw [specCont_dir rest 0 hskip'] at hkv
    have hde : depthExceeded cfg.maxDepth (0 + 1) = true := by
      rw [h]
      decide
    rw [hde] at hkv
    simp only [Bool.true_or, if_true, List.nil_append] at hkv
    obtain ⟨fe, hfe, hpe⟩ := ihrest rfl kv hkv
    exact ⟨fe, List.mem_cons_of_mem _ hfe, hpe⟩
  | case4 rest base depth name readResult _nm _rel hskip ihrest =>
    intro hd kv hkv
    subst hd
    have hskip' : should_skip_tree name (joinRel base name) cfg.patterns
        cfg.includeHidden = false := Bool.eq_false_iff.mpr hskip
    rw [specCont_file rest 0 hskip'] at hkv
    rw [List.mem_append] at hkv
    rcases hkv with hkv | hkv
    · split at hkv
      · simp at hkv
      · simp at hkv
        exact ⟨FSEntry.file name readResult, List.mem_cons_self _ _, by rw [hkv] ; rfl⟩
    · obtain ⟨fe, hfe, hpe⟩ := ihrest rfl kv hkv
      exact ⟨fe, List.mem_cons_of_mem _ hfe, hpe⟩

/-! ## Dotless names (legacy versus generalized media check) -/

theorem toLower_ne_dot {c : Char} (h : c ≠ '.') : c.toLower ≠ '.' := by
  unfold Char.toLower
  simp only []
  split
  · rename_i hrange
    intro hEq
    have hvalid : Nat.isValidChar (c.toNat + 32) := by
      unfold Nat.isValidChar
      left
      omega
    have hval : (Char.ofNat (c.toNat + 32)).toNat = c.toNat + 32 := by
      unfold Char.ofNat
      rw [dif_pos hvalid]
      rfl
    rw [hEq] at hval
    have hdot : ('.' : Char).toNat = 46 := by decide
    omega
  · exact h

theorem strToLower_no_dot {s : String} (h : ∀ c ∈ s.data, c ≠ '.') :
    ∀ c ∈ (strToLower s).data, c ≠ '.' := by
  unfold strToLower
  intro c hc
  simp at hc
  obtain ⟨a, ha, rfl⟩ := hc
  exact toLower_ne_dot (h a ha)

theorem afterLastDot_no_dot {s : String} (h : ∀ c ∈ s.data, c ≠ '.') :
    afterLastDot s = s := by
  unfold afterLastDot
  have htw : s.data.reverse.takeWhile (fun c => c != '.') = s.data.reverse := by
    apply List.takeWhile_eq_self_iff.mpr
    intro c hc
    simp
    exact h c (List.mem_reverse.mp hc)
  rw [htw, List.reverse_reverse]

theorem splitextExt_no_dot {s : String} (h : ∀ c ∈ s.data, c ≠ '.') :
    splitextExt s = "" := by
  unfold splitextExt
  simp only []
  have hsub : ∀ c ∈ (s.data.reverse.takeWhile (fun c => c != '/')).reverse.reverse,
      c ≠ '.' := by
    intro c hc
    rw [List.reverse_reverse] at hc
    exact h c (List.mem_reverse.mp ((List.takeWhile_sublist _).subset hc))
  have htw : (s.data.reverse.takeWhile (fun c => c != '/')).reverse.reverse.takeWhile
      (fun c => c != '.') = (s.data.reverse.takeWhile (fun c => c != '/')).reverse.reverse := by
    apply List.takeWhile_eq_self_iff.mpr
    intro c hc
    simp
    exact hsub c hc
  rw [htw]
  simp

/-! ## Observing the same unchanged tree in two listing orders -/

mutual
/-- Two filesystem values presenting the same unchanged filesystem: equal
files, equal directories, with every directory listing observed in a
possibly different order (as two `os.listdir` calls may). -/
inductive FSPerm : FSEntry → FSEntry → Type where
  | file (n : String) (c : Option String) : FSPerm (.file n c) (.file n c)
  | dir (n : String) (b : Bool) {cs1 cs2 : List FSEntry} :
      FSListPerm cs1 cs2 → FSPerm (.dir n b cs1) (.dir n b cs2)

/-- Permutation of sibling lists matching entries related by `FSPerm`. -/
inductive FSListPerm : List FSEntry → List FSEntry → Type where
  | nil : FSListPerm [] []
  | cons {a b : FSEntry} {l1 l2 : List FSEntry} :
      FSPerm a b → FSListPerm l1 l2 → FSListPerm (a :: l1) (b :: l2)
  | swap {a a' b b' : FSEntry} {l1 l2 : List FSEntry} :
      FSPerm a a' → FSPerm b b' → FSListPerm l1 l2 →
      FSListPerm (a :: b :: l1) (b' :: a' :: l2)
  | trans {l1 l2 l3 : List FSEntry} :
      FSListPerm l1 l2 → FSListPerm l2 l3 → FSListPerm l1 l3
end

theorem fsPerm_name {a b : FSEntry} (h : FSPerm a b) : fsName a = fsName b := by
  cases h with
  | file n c => rfl
  | dir n bb hcs => rfl

theorem wfFS_dir_intro {n : String} {b : Bool} {cs : List FSEntry}
    (hv : validName n = true) (hs : wfSibs cs = true) :
    wfFS (.dir n b cs) = true := by
  rw [wfFS_dir_eq]
  rw [wfSibs_iff] at hs
  simp [hv, distinctStrs_iff, hs.1]
  exact hs.2

theorem wfSibs_cons_intro {e : FSEntry} {l : List FSEntry}
    (hw : wfFS e = true) (hl : wfSibs l = true)
    (hn : fsName e ∉ l.map fsName) : wfSibs (e :: l) = true := by
  rw [wfSibs_iff] at hl ⊢
  refine ⟨?_, ?_⟩
  · rw [List.map_cons, List.nodup_cons]
    exact ⟨hn, hl.1⟩
  · intro x hx
    rcases List.mem_cons.mp hx with rfl | hx
    · exact hw
    · exact hl.2 x hx

theorem insertByName_comm {x y : FSEntry} (hne : fsName x ≠ fsName y) :
    ∀ S : List FSEntry,
      insertByName x (insertByName y S) = insertByName y (insertByName x S) := by
  intro S
  induction S with
  | nil =>
    simp only [insertByName]
    rcases lt_trichotomy (fsName x) (fsName y) with hlt | hEq | hgt
    · rw [decide_eq_false (asymm hlt), decide_eq_true hlt]
      simp [insertByName]
    · exact absurd hEq hne
    · rw [decide_eq_true hgt, decide_eq_false (asymm hgt)]
      simp [insertByName]
  | cons z zs ih =>
    by_cases hzy : fsName z < fsName y
    · by_cases hzx : fsName z < fsName x
      · rw [show insertByName y (z :: zs) = z :: insertByName y zs by
            rw [insertByName] ; rw [if_pos (decide_eq_true hzy)]]
        rw [show insertByName x (z :: zs) = z :: insertByName x zs by
            rw [insertByName] ; rw [if_pos (decide_eq_true hzx)]]
        rw [show insertByName x (z :: insertByName y zs) =
              z :: insertByName x (insertByName y zs) by
            rw [insertByName] ; rw [if_pos (decide_eq_true hzx)]]
        rw [show insertByName y (z :: insertByName x zs) =
              z :: insertByName y (insertByName x zs) by
            rw [insertByName] ; rw [if_pos (decide_eq_true hzy)]]
        rw [ih]
      · -- x ≤ z < y
        have hxz : ¬ fsName z < fsName x := hzx
        rw [show insertByName y (z :: zs) = z :: insertByName y zs by
            rw [insertByName] ; rw [if_pos (decide_eq_true hzy)]]
        rw [show insertByName x (z :: insertByName y zs) =
              x :: z :: insertByName y zs by
            rw [insertByName] ; rw [if_neg (by simpa using hxz)]]
        rw [show insertByName x (z :: zs) = x :: z :: zs by
            rw [insertByName] ; rw [if_neg (by simpa using hxz)]]
        rw [show insertByName y (x :: z :: zs) = x :: insertByName y (z :: zs) by
            rw [insertByName]
            rw [if_pos (decide_eq_true (lt_of_le_of_lt (le_of_not_lt hxz) hzy))]]
        rw [show insertByName y (z :: zs) = z :: insertByName y zs by
            rw [insertByName] ; rw [if_pos (decide_eq_true hzy)]]
    · by_cases hzx : fsName z < fsName x
      · -- y ≤ z < x
        rw [show insertByName y (z :: zs) = y :: z :: zs by
            rw [insertByName] ; rw [if_neg (by simpa using hzy)]]
        rw [show insertByName x (y :: z :: zs) = y :: insertByName x (z :: zs) by
            rw [insertByName]
            rw [if_pos (decide_eq_true (lt_of_le_of_lt (le_of_not_lt hzy) hzx))]]
        rw [show insertByName x (z :: zs) = z :: insertByName x zs by
            rw [insertByName] ; rw [if_pos (decide_eq_true hzx)]]
        rw [show insertByName y (z :: insertByName x zs) =
              y :: z :: insertByName x zs by
            rw [insertByName] ; rw [if_neg (by simpa using hzy)]]
      · -- x ≤ z and y ≤ z
        rw [show insertByName y (z :: zs) = y :: z :: zs by
            rw [insertByName] ; rw [if_neg (by simpa using hzy)]]
        rw [show insertByName x (z :: zs) = x :: z :: zs by
            rw [insertByName] ; rw [if_neg (by simpa using hzx)]]
        rcases lt_trichotomy (fsName x) (fsName y) with hlt | hEq | hgt
        · rw [show insertByName x (y :: z :: zs) = x :: y :: z :: zs by
              rw [insertByName] ; rw [if_neg (by simpa using asymm hlt)]]
          rw [show insertByName y (x :: z :: zs) = x :: insertByName y (z :: zs) by
              rw [insertByName] ; rw [if_pos (decide_eq_true hlt)]]
          rw [show insertByName y (z :: zs) = y :: z :: zs by
              rw [insertByName] ; rw [if_neg (by simpa using hzy)]]
        · exact absurd hEq hne
        · rw [show insertByName x (y :: z :: zs) = y :: insertByName x (z :: zs) by
              rw [insertByName] ; rw [if_pos (decide_eq_true hgt)]]
          rw [show insertByName x (z :: zs) = x :: z :: zs by
              rw [insertByName] ; rw [if_neg (by simpa using hzx)]]
          rw [show insertByName y (x :: z :: zs) = y :: x :: z :: zs by
              rw [insertByName] ; rw [if_neg (by simpa using asymm hgt)]]

mutual
theorem fsPerm_sortFS : ∀ {a b : FSEntry}, FSPerm a b → wfFS a = true →
    sortFS a = sortFS b ∧ wfFS b = true
  | _, _, .file n c => fun hw => ⟨rfl, hw⟩
  | _, _, .dir n bb hcs => fun hw => by
    have hd := wfFS_dir hw
    obtain ⟨hEq, hwf2, hperm⟩ := fsListPerm_sort hcs hd.2
    constructor
    · rw [sortFS_dir, sortFS_dir, hEq]
    · exact wfFS_dir_intro hd.1 hwf2

theorem fsListPerm_sort : ∀ {l1 l2 : List FSEntry}, FSListPerm l1 l2 →
    wfSibs l1 = true →
    sortByName (l1.map sortFS) = sortByName (l2.map sortFS) ∧ wfSibs l2 = true ∧
      (l1.map fsName).Perm (l2.map fsName)
  | _, _, .nil => fun hw => ⟨rfl, hw, List.Perm.refl _⟩
  | a :: l1, b :: l2, .cons hab htail => fun hw => by
    obtain ⟨hwa, hwl, hdist⟩ := wfSibs_cons hw
    obtain ⟨hEqab, hwb⟩ := fsPerm_sortFS hab hwa
    obtain ⟨htEq, hwl2, hnames⟩ := fsListPerm_sort htail hwl
    refine ⟨?_, ?_, ?_⟩
    · simp only [List.map_cons, sortByName]
      rw [hEqab, htEq]
    · apply wfSibs_cons_intro hwb hwl2
      intro hmem
      have hmem1 : fsName a ∈ l1.map fsName := by
        apply hnames.symm.subset
        rw [fsPerm_name hab]
        exact hmem
      obtain ⟨e', he', hEqn⟩ := List.mem_map.mp hmem1
      exact hdist e' he' hEqn
    · rw [List.map_cons, List.map_cons, fsPerm_name hab]
      exact hnames.cons _
  | a :: b :: t1, b' :: a' :: t2, .swap haa' hbb' htail => fun hw => by
    obtain ⟨hwa, hw1, hdist1⟩ := wfSibs_cons hw
    obtain ⟨hwb, hwt, hdist2⟩ := wfSibs_cons hw1
    obtain ⟨hEqa, hwa'⟩ := fsPerm_sortFS haa' hwa
    obtain ⟨hEqb, hwb'⟩ := fsPerm_sortFS hbb' hwb
    obtain ⟨htEq, hwt2, hnames⟩ := fsListPerm_sort htail hwt
    have hba : fsName b ≠ fsName a := hdist1 b (List.mem_cons_self _ _)
    refine ⟨?_, ?_, ?_⟩
    · simp only [List.map_cons, sortByName]
      rw [hEqa, hEqb, htEq]
      apply insertByName_comm
      rw [fsName_sortFS, fsName_sortFS, ← fsPerm_name haa', ← fsPerm_name hbb']
      exact hba.symm
    · have hinner : wfSibs (a' :: t2) = true := by
        apply wfSibs_cons_intro hwa' hwt2
        intro hmem
        have hmem1 : fsName a ∈ t1.map fsName := by
          apply hnames.symm.subset
          rw [fsPerm_name haa']
          exact hmem
        obtain ⟨e', he', hEqn⟩ := List.mem_map.mp hmem1
        exact hdist1 e' (List.mem_cons_of_mem _ he') hEqn
      apply wfSibs_cons_intro hwb' hinner
      intro hmem
      rw [List.map_cons] at hmem
      rcases List.mem_cons.mp hmem with hEqn | hmem2
      · exact hba (by rw [fsPerm_name hbb', hEqn, ← fsPerm_name haa'])
      · have hmem1 : fsName b ∈ t1.map fsName := by
          apply hnames.symm.subset
          rw [fsPerm_name hbb']
          exact hmem2
        obtain ⟨e', he', hEqn⟩ := List.mem_map.mp hmem1
        exact hdist2 e' he' hEqn
    · simp only [List.map_cons]
      rw [fsPerm_name haa', fsPerm_name hbb']
      exact (List.Perm.swap (fsName b') (fsName a') (t1.map fsName)).trans
        ((hnames.cons (fsName a')).cons (fsName b'))
  | _, _, .trans h12 h23 => fun hw => by
    obtain ⟨hEq12, hw2, hn12⟩ := fsListPerm_sort h12 hw
    obtain ⟨hEq23, hw3, hn23⟩ := fsListPerm_sort h23 hw2
    exact ⟨hEq12.trans hEq23, hw3, hn12.trans hn23⟩
end

/-! ## Tree-filter decomposition and the full text export -/

theorem should_skip_tree_false {n p : String} {pats : List String} {ih : Bool}
    (h : should_skip_tree n p pats ih = false) :
    (!ih && strStartsWith n (".")) = false ∧
    pats.any (fun pat => fnmatchB p pat) = false ∧
    MEDIA_EXTENSIONS.contains (extOf n) = false := by
  unfold should_skip_tree at h
  split at h
  · cases h
  · rename_i h1
    split at h
    · cases h
    · rename_i h2
      split at h
      · cases h
      · rename_i h3
        exact ⟨Bool.eq_false_iff.mpr h1, Bool.eq_false_iff.mpr h2,
          Bool.eq_false_iff.mpr h3⟩

theorem specTree_files_noskip (cfg : Config) (es : List FSEntry) (base : String)
    (depth : Nat) :
    ∀ np ∈ filesOf (specTree cfg es base depth),
      should_skip_tree np.1 np.2 cfg.patterns cfg.includeHidden = false := by
  induction es, base, depth using specTree.induct cfg with
  | case1 base depth =>
    intro np hnp
    simp [specTree_nil, filesOf_nil] at hnp
  | case2 e rest base depth _nm _rel hskip ih =>
    intro np hnp
    rw [specTree_skip rest depth hskip] at hnp
    exact ih np hnp
  | case3 rest base depth name listable children _nm _rel hskip ihch ihrest =>
    intro np hnp
    have hskip' : should_skip_tree name (joinRel base name) cfg.patterns
        cfg.includeHidden = false := Bool.eq_false_iff.mpr hskip
    rw [specTree_dir rest depth hskip'] at hnp
    rw [filesOf_dir, List.mem_append] at hnp
    rcases hnp with hnp | hnp
    · split at hnp
      · simp [filesOf_nil] at hnp
      · exact ihch np hnp
    · exact ihrest np hnp
  | case4 rest base depth name readResult _nm _rel hskip ihrest =>
    intro np hnp
    have hskip' : should_skip_tree name (joinRel base name) cfg.patterns
        cfg.includeHidden = false := Bool.eq_false_iff.mpr hskip
    rw [specTree_file rest depth hskip'] at hnp
    rw [filesOf_file] at hnp
    rcases List.mem_cons.mp hnp with rfl | hnp
    · exact hskip'
    · exact ihrest np hnp

theorem scan_cut (cfg : Config) (b : Bool) (l : List FSEntry)
    (h : depthExceeded cfg.maxDepth 0 = true ∨ b = false) :
    scan cfg b l = ([], []) := by
  unfold scan
  rcases h with h | h
  · rw [if_pos h]
  · subst h
    split
    · rfl
    · rfl

theorem scan_go (cfg : Config) (l : List FSEntry)
    (h : depthExceeded cfg.maxDepth 0 = false) :
    scan cfg true l = scanGo cfg (sortFSList l) ("") 0 [] := by
  unfold scan
  rw [h]
  rfl

/-! ## Sample inputs used by the witnesses -/

/-- Default configuration: gitignore patterns `[".git/"]`, hidden excluded,
no extension/include/exclude filters, no depth limit. -/
def sampleCfg : Config :=
  { patterns := [".git/"], includeHidden := false, ignoreExts := [],
    includePats := [], excludePats := [], maxDepth := none }

/-- The spec's example tree: `a.py`, `sub/b.py`, `img.png`, `.hidden.py`. -/
def sampleFS : List FSEntry :=
  [FSEntry.file ("a.py") (some ("x=1")),
   FSEntry.dir ("sub") true [FSEntry.file ("b.py") (some ("y=2"))],
   FSEntry.file ("img.png") (some ("IMG")),
   FSEntry.file (".hidden.py") (some ("h"))]

/-! ## Claims -/

/-- C1 counterexample: with the always-appended pattern `".git/"` and the
relative path `".git/x.txt"` (hidden entries requested, so the hidden rule
is off), the pattern ends in a separator and the path starts with its
directory prefix — yet the generalized variant's pruning predicate
`should_skip_tree` returns false, because it glob-matches only.  The
legacy `is_ignored` does return true there. -/
theorem C1_counterexample :
    strEndsWith (".git/") ("/") = true ∧
    strStartsWith (".git/x.txt") (rstripSlash (".git/")) = true ∧
    should_skip_tree ("x.txt") (".git/x.txt") [".git/"] true = false ∧
    is_ignored (".git/x.txt") [".git/"] = true := by
  refine ⟨by decide, by decide, ?_, ?_⟩
  · simp +decide [should_skip_tree, fnmatchB, globMatch, parseBracket, bracketBody,
      findClose, inBracket, bracketItems, strStartsWith, extOf, splitextExt,
      strToLower, lstripDot, MEDIA_EXTENSIONS]
  · simp +decide [is_ignored, strEndsWith, strStartsWith, rstripSlash]

/-- C1 (amended): the pattern-matching predicate of the legacy variant,
`is_ignored`, returns true exactly when some pattern glob-matches the full
relative path or ends in a path separator and the path starts with the
pattern stripped of its trailing separators; the generalized variant's
pruning predicate `should_skip_tree` instead uses glob matching only for
the pattern check (shown here with hidden entries included: it reduces to
glob-match-any OR media-extension, with no directory-prefix rule). -/
theorem C1_pattern_predicate (path name : String) (patterns : List String) :
    (is_ignored path patterns = true ↔
      ∃ pat ∈ patterns, fnmatchB path pat = true ∨
        (strEndsWith pat ("/") = true ∧
          strStartsWith path (rstripSlash pat) = true)) ∧
    should_skip_tree name path patterns true =
      (patterns.any (fun pat => fnmatchB path pat) ||
        MEDIA_EXTENSIONS.contains (extOf name)) := by
  constructor
  · unfold is_ignored
    rw [List.any_eq_true]
    constructor
    · rintro ⟨pat, hp, hcond⟩
      rcases Bool.or_eq_true_iff.mp hcond with h | h
      · obtain ⟨h1, h2⟩ := (Bool.and_eq_true _ _).mp h
        exact ⟨pat, hp, Or.inr ⟨h1, h2⟩⟩
      · exact ⟨pat, hp, Or.inl h⟩
    · rintro ⟨pat, hp, hcond⟩
      rcases hcond with h | ⟨h1, h2⟩
      · exact ⟨pat, hp, Bool.or_eq_true_iff.mpr (Or.inr h)⟩
      · exact ⟨pat, hp, Bool.or_eq_true_iff.mpr (Or.inl ((Bool.and_eq_true _ _).mpr ⟨h1, h2⟩))⟩
  · unfold should_skip_tree
    simp only [Bool.not_true, Bool.false_and, Bool.false_eq_true, if_false]
    by_cases h2 : patterns.any (fun pat => fnmatchB path pat) = true
    · rw [if_pos h2, h2, Bool.true_or]
    · rw [if_neg h2, Bool.eq_false_iff.mpr h2, Bool.false_or]
      by_cases h3 : MEDIA_EXTENSIONS.contains (extOf name) = true
      · rw [if_pos h3, h3]
      · rw [if_neg h3, Bool.eq_false_iff.mpr h3]

/-- C2: for every scanned tree, the Content Map's keys are a subset of the
relative paths of File entries in the tree, and a File entry's path is
absent from the Content Map exactly when it fails the ignore-extension,
include-glob or exclude-glob check (so an unreadable file passing those
checks is present). -/
theorem C2_content_map (cfg : Config) (b : Bool) (l : List FSEntry)
    (hwf : wfSibs l = true) :
    (∀ p ∈ keysOf (scan cfg b l).2, ∃ n, (n, p) ∈ filesOf (scan cfg b l).1) ∧
    (∀ n p, (n, p) ∈ filesOf (scan cfg b l).1 →
      (p ∉ keysOf (scan cfg b l).2 ↔
        should_skip_content n p cfg.ignoreExts cfg.includePats
          cfg.excludePats = true)) := by
  by_cases hroot : depthExceeded cfg.maxDepth 0 = true
  · rw [scan_cut cfg b l (Or.inl hroot)]
    simp [keysOf, filesOf_nil]
  · cases b with
    | false =>
      rw [scan_cut cfg false l (Or.inr rfl)]
      simp [keysOf, filesOf_nil]
    | true =>
      rw [scan_spec cfg l hwf (Bool.eq_false_iff.mpr hroot)]
      constructor
      · intro p hp
        obtain ⟨v, hv⟩ := mem_keysOf.mp hp
        obtain ⟨n, hn, -⟩ := specCont_sub_files cfg (sortFSList l) ("") 0 (p, v) hv
        exact ⟨n, hn⟩
      · intro n p hnp
        have hiff := spec_file_iff cfg (sortFSList l) ("") 0 (sortFSList_wf hwf) n p hnp
        constructor
        · intro hnot
          cases hsk : should_skip_content n p cfg.ignoreExts cfg.includePats
              cfg.excludePats with
          | false => exact absurd (hiff.mpr hsk) hnot
          | true => rfl
        · intro hsk hmem
          have h1 := hiff.mp hmem
          rw [h1] at hsk
          cases hsk

/-- C2 witness at the sample tree. -/
theorem C2_witness :
    (∀ p ∈ keysOf (scan sampleCfg true sampleFS).2,
      ∃ n, (n, p) ∈ filesOf (scan sampleCfg true sampleFS).1) ∧
    (∀ n p, (n, p) ∈ filesOf (scan sampleCfg true sampleFS).1 →
      (p ∉ keysOf (scan sampleCfg true sampleFS).2 ↔
        should_skip_content n p sampleCfg.ignoreExts sampleCfg.includePats
          sampleCfg.excludePats = true)) :=
  C2_content_map sampleCfg true sampleFS
    (by simp +decide [sampleFS, wfSibs, wfFS_dir_eq, wfFS_file_eq, validName,
      distinctStrs, fsName])

/-- C3: with max-depth 0, every tree entry is root-level — directory
entries have no children, file paths have no separator — and every Content
Map key is a separator-free root-level path, so no entry below the root
appears in either structure and no subdirectory is descended into. -/
theorem C3_max_depth_zero (cfg : Config) (b : Bool) (l : List FSEntry)
    (hmd : cfg.maxDepth = some 0) (hwf : wfSibs l = true) :
    (∀ e ∈ (scan cfg b l).1,
      (∀ nm ch, e = Entry.dir nm ch → ch = []) ∧
      (∀ nm p, e = Entry.file nm p → p.data.all (fun c => c != '/') = true)) ∧
    (∀ p ∈ keysOf (scan cfg b l).2, p.data.all (fun c => c != '/') = true) := by
  have hroot : depthExceeded cfg.maxDepth 0 = false := by
    rw [hmd]
    decide
  cases b with
  | false =>
    rw [scan_cut cfg false l (Or.inr rfl)]
    simp [keysOf]
  | true =>
    rw [scan_spec cfg l hwf hroot]
    have hvall : ∀ fe ∈ sortFSList l, (fsName fe).data.all (fun c => c != '/') = true := by
      intro fe hfe
      have hv : validName (fsName fe) = true :=
        wfFS_validName (wfSibs_mem (sortFSList_wf hwf) hfe)
      unfold validName at hv
      exact ((Bool.and_eq_true _ _).mp hv).2
    constructor
    · intro e he
      have h0 := specTree_depth0 cfg hmd (sortFSList l) ("") 0 rfl e he
      refine ⟨h0.1, fun nm p hp => ?_⟩
      obtain ⟨fe, hfe, hpe⟩ := h0.2 nm p hp
      rw [hpe, show joinRel ("") (fsName fe) = fsName fe from by simp [joinRel]]
      exact hvall fe hfe
    · intro p hp
      obtain ⟨v, hv⟩ := mem_keysOf.mp hp
      obtain ⟨fe, hfe, hpe⟩ := specCont_depth0 cfg hmd (sortFSList l) ("") 0 rfl (p, v) hv
      have hpe' : p = fsName fe := by
        simpa [joinRel] using hpe
      rw [hpe']
      exact hvall fe hfe

/-- C3 witness at the sample tree with max-depth 0. -/
theorem C3_witness :
    (∀ e ∈ (scan { sampleCfg with maxDepth := some 0 } true sampleFS).1,
      (∀ nm ch, e = Entry.dir nm ch → ch = []) ∧
      (∀ nm p, e = Entry.file nm p → p.data.all (fun c => c != '/') = true)) ∧
    (∀ p ∈ keysOf (scan { sampleCfg with maxDepth := some 0 } true sampleFS).2,
      p.data.all (fun c => c != '/') = true) :=
  C3_max_depth_zero { sampleCfg with maxDepth := some 0 } true sampleFS rfl
    (by simp +decide [sampleFS, wfSibs, wfFS_dir_eq, wfFS_file_eq, validName,
      distinctStrs, fsName])

/-- C4 counterexample: requesting yaml output with an output path while the
serializer is unavailable exits with code 1 and prints the diagnostic, but
`open(args.output, 'w')` has already run before the check, so an (empty)
output file IS produced — refuting "produces no output file". -/
theorem C4_counterexample :
    (mainOutputPhase false OutFormat.yaml (some ("out.yaml")) [] [] ("") ("")).exitCode
        = some 1 ∧
    (mainOutputPhase false OutFormat.yaml (some ("out.yaml")) [] [] ("") ("")).stderrLines
        = [YAML_ERROR] ∧
    (mainOutputPhase false OutFormat.yaml (some ("out.yaml")) [] [] ("") ("")).outputFileOpened
        = true :=
  ⟨rfl, rfl, rfl⟩

/-- C4 (amended): when the yaml format is requested with an output file
path and the serializer is not installed, the program exits with code 1,
writes the diagnostic to stderr and writes nothing to the sink — but the
output file has already been opened for writing (created or truncated)
before the capability check, so an empty output file is produced rather
than no file. -/
theorem C4_yaml_unavailable (outPath : String) (tree : List Entry)
    (contents : CMap) (jsonDump yamlDump : String) :
    (mainOutputPhase false OutFormat.yaml (some outPath) tree contents
        jsonDump yamlDump).exitCode = some 1 ∧
    (mainOutputPhase false OutFormat.yaml (some outPath) tree contents
        jsonDump yamlDump).stderrLines = [YAML_ERROR] ∧
    (mainOutputPhase false OutFormat.yaml (some outPath) tree contents
        jsonDump yamlDump).written = none ∧
    (mainOutputPhase false OutFormat.yaml (some outPath) tree contents
        jsonDump yamlDump).outputFileOpened = true :=
  ⟨rfl, rfl, rfl, rfl⟩

/-- C5: a file that passes the tree and content filters but whose read
raises (decode failure or any other read failure, modelled as read result
`none`) is recorded in the Content Map under its relative path with the
unreadable sentinel, and the scan continues with the remaining entries:
the scan of `pre ++ [unreadable file] ++ post` equals the scan of `pre`,
then the file entry plus the sentinel insertion, then the scan of `post`. -/
theorem C5_unreadable (cfg : Config) (pre post : List FSEntry) (base : String)
    (depth : Nat) (c : CMap) (name : String)
    (hskip : should_skip_tree name (joinRel base name) cfg.patterns
      cfg.includeHidden = false)
    (hsc : should_skip_content name (joinRel base name) cfg.ignoreExts
      cfg.includePats cfg.excludePats = false) :
    scanGo cfg (pre ++ FSEntry.file name none :: post) base depth c =
      ((scanGo cfg pre base depth c).1 ++ Entry.file name (joinRel base name) ::
          (scanGo cfg post base depth
            (dictInsert (scanGo cfg pre base depth c).2 (joinRel base name) none)).1,
        (scanGo cfg post base depth
          (dictInsert (scanGo cfg pre base depth c).2 (joinRel base name) none)).2) := by
  rw [scanGo_append cfg (FSEntry.file name none :: post) base depth pre c]
  rw [scanGo_file_read post depth (scanGo cfg pre base depth c).2 hskip hsc]

/-- C5 witness: an unreadable `bad.py` between `a.py` and `z.py`. -/
theorem C5_witness :
    scanGo sampleCfg
        ([FSEntry.file ("a.py") (some ("x=1"))] ++
          FSEntry.file ("bad.py") none :: [FSEntry.file ("z.py") (some ("z"))])
        ("") 0 [] =
      ((scanGo sampleCfg [FSEntry.file ("a.py") (some ("x=1"))] ("") 0 []).1 ++
          Entry.file ("bad.py") (joinRel ("") ("bad.py")) ::
          (scanGo sampleCfg [FSEntry.file ("z.py") (some ("z"))] ("") 0
            (dictInsert
              (scanGo sampleCfg [FSEntry.file ("a.py") (some ("x=1"))] ("") 0 []).2
              (joinRel ("") ("bad.py")) none)).1,
        (scanGo sampleCfg [FSEntry.file ("z.py") (some ("z"))] ("") 0
          (dictInsert
            (scanGo sampleCfg [FSEntry.file ("a.py") (some ("x=1"))] ("") 0 []).2
            (joinRel ("") ("bad.py")) none)).2) :=
  C5_unreadable sampleCfg [FSEntry.file ("a.py") (some ("x=1"))]
    [FSEntry.file ("z.py") (some ("z"))] ("") 0 [] ("bad.py")
    (by simp +decide [sampleCfg, should_skip_tree, fnmatchB, globMatch, parseBracket,
      bracketBody, findClose, inBracket, bracketItems, strStartsWith, extOf,
      splitextExt, strToLower, lstripDot, MEDIA_EXTENSIONS, joinRel])
    (by simp +decide [sampleCfg, should_skip_content, extOf, splitextExt, strToLower,
      lstripDot, joinRel])

/-- C6: every File entry in the tree passed the tree filter: its
stored name/path pair fails the hidden rule (unless the hidden flag is
set), matches no loaded ignore pattern, and has no media extension. -/
theorem C6_tree_entries_pass_filters (cfg : Config) (b : Bool) (l : List FSEntry)
    (n p : String) (hmem : (n, p) ∈ filesOf (scan cfg b l).1) :
    should_skip_tree n p cfg.patterns cfg.includeHidden = false ∧
    (!cfg.includeHidden && strStartsWith n (".")) = false ∧
    cfg.patterns.any (fun pat => fnmatchB p pat) = false ∧
    MEDIA_EXTENSIONS.contains (extOf n) = false := by
  by_cases hroot : depthExceeded cfg.maxDepth 0 = true
  · rw [scan_cut cfg b l (Or.inl hroot)] at hmem
    simp [filesOf_nil] at hmem
  · cases b with
    | false =>
      rw [scan_cut cfg false l (Or.inr rfl)] at hmem
      simp [filesOf_nil] at hmem
    | true =>
      rw [scan_go cfg l (Bool.eq_false_iff.mpr hroot)] at hmem
      rw [scanGo_fst cfg (sortFSList l) ("") 0 []] at hmem
      have h := specTree_files_noskip cfg (sortFSList l) ("") 0 (n, p) hmem
      obtain ⟨h1, h2, h3⟩ := should_skip_tree_false h
      exact ⟨h, h1, h2, h3⟩

/-- C6 witness at the sample tree, for the entry `sub/b.py`. -/
theorem C6_witness :
    should_skip_tree ("b.py") ("sub/b.py") sampleCfg.patterns
      sampleCfg.includeHidden = false ∧
    (!sampleCfg.includeHidden && strStartsWith ("b.py") (".")) = false ∧
    sampleCfg.patterns.any (fun pat => fnmatchB ("sub/b.py") pat) = false ∧
    MEDIA_EXTENSIONS.contains (extOf ("b.py")) = false :=
  C6_tree_entries_pass_filters sampleCfg true sampleFS ("b.py") ("sub/b.py")
    (by simp +decide [sampleCfg, sampleFS, scan, scanGo, specTree, specCont,
      sortFSList, sortByName, insertByName, sortFS, fsName, depthExceeded,
      should_skip_tree, should_skip_content, fnmatchB, globMatch, parseBracket,
      bracketBody, findClose, inBracket, bracketItems, strStartsWith, extOf,
      splitextExt, strToLower, lstripDot, MEDIA_EXTENSIONS, joinRel,
      dictInsert, keysOf, filesOf])

/-- C7 counterexample: scanning a root containing the file `a.txt` and the
directory `b` holding `c.txt` inserts the keys in the order
`["a.txt", "b/c.txt"]` — the root-level file comes first, so keys are NOT
inserted with directories before their files. -/
theorem C7_counterexample :
    keysOf (scan sampleCfg true
        [FSEntry.file ("a.txt") (some ("x")),
         FSEntry.dir ("b") true [FSEntry.file ("c.txt") (some ("y"))]]).2 =
      ["a.txt", "b/c.txt"] ∧
    keysOf (scan sampleCfg true
        [FSEntry.file ("a.txt") (some ("x")),
         FSEntry.dir ("b") true [FSEntry.file ("c.txt") (some ("y"))]]).2 ≠
      ["b/c.txt", "a.txt"] := by
  constructor <;>
    simp +decide [sampleCfg, scan, scanGo, sortFSList, sortByName, insertByName,
      sortFS, fsName, depthExceeded, should_skip_tree, should_skip_content,
      fnmatchB, globMatch, parseBracket, bracketBody, findClose, inBracket,
      bracketItems, strStartsWith, extOf, splitextExt, strToLower, lstripDot,
      MEDIA_EXTENSIONS, joinRel, dictInsert, keysOf]

/-- C7 (amended): Content Map keys are inserted in depth-first traversal
order with the siblings of each directory sorted by name ascending in
code-point order, directories and files interleaved in one alphabetical
sequence (not partitioned, not directories-first): the scan equals its
accumulator-free form over the recursively name-sorted tree, whose content
list concatenates, per sibling in sorted order, either the subdirectory's
recursively collected contents or the file's single entry. -/
theorem C7_insertion_order (cfg : Config) (l : List FSEntry)
    (hwf : wfSibs l = true) (hroot : depthExceeded cfg.maxDepth 0 = false) :
    scan cfg true l =
      (specTree cfg (sortFSList l) ("") 0, specCont cfg (sortFSList l) ("") 0) :=
  scan_spec cfg l hwf hroot

/-- C7 witness at the sample tree. -/
theorem C7_witness :
    scan sampleCfg true sampleFS =
      (specTree sampleCfg (sortFSList sampleFS) ("") 0,
        specCont sampleCfg (sortFSList sampleFS) ("") 0) :=
  C7_insertion_order sampleCfg sampleFS
    (by simp +decide [sampleFS, wfSibs, wfFS_dir_eq, wfFS_file_eq, validName,
      distinctStrs, fsName])
    (by decide)

/-- C8: two runs of the text export over the same unchanged filesystem —
the second observing every directory listing in a possibly different order
(`FSListPerm`) — produce byte-identical output strings; determinism comes
from sorting each listing by name. -/
theorem C8_two_runs_identical (cfg : Config) (b : Bool) (l1 l2 : List FSEntry)
    (hwf : wfSibs l1 = true) (hperm : FSListPerm l1 l2) :
    render_text (scan cfg b l1).1 (scan cfg b l1).2 =
      render_text (scan cfg b l2).1 (scan cfg b l2).2 := by
  have hsort : sortFSList l1 = sortFSList l2 := by
    have h := (fsListPerm_sort hperm hwf).1
    unfold sortFSList
    exact h
  unfold scan
  rw [hsort]

/-- C8 witness: the same two files listed in the two possible orders. -/
theorem C8_witness :
    render_text
        (scan sampleCfg true
          [FSEntry.file ("a.py") (some ("1")), FSEntry.file ("b.py") (some ("2"))]).1
        (scan sampleCfg true
          [FSEntry.file ("a.py") (some ("1")), FSEntry.file ("b.py") (some ("2"))]).2 =
      render_text
        (scan sampleCfg true
          [FSEntry.file ("b.py") (some ("2")), FSEntry.file ("a.py") (some ("1"))]).1
        (scan sampleCfg true
          [FSEntry.file ("b.py") (some ("2")), FSEntry.file ("a.py") (some ("1"))]).2 :=
  C8_two_runs_identical sampleCfg true
    [FSEntry.file ("a.py") (some ("1")), FSEntry.file ("b.py") (some ("2"))]
    [FSEntry.file ("b.py") (some ("2")), FSEntry.file ("a.py") (some ("1"))]
    (by simp +decide [wfSibs, wfFS_file_eq, validName, distinctStrs, fsName])
    (FSListPerm.swap (FSPerm.file ("a.py") (some ("1")))
      (FSPerm.file ("b.py") (some ("2"))) FSListPerm.nil)

/-- C9: for a file name containing no dot, the legacy variant's media check
compares the entire lowercased name against the media-extension set (so a
dotless name equal to a media extension is excluded from listing and from
content by the shared legacy per-file filter), whereas the generalized
variant's extension is empty for such a name and its media check never
fires. -/
theorem C9_dotless_media (fname relFile : String) (patterns : List String)
    (includeHidden : Bool) (ignoreExts : List String)
    (hnd : ∀ c ∈ fname.data, c ≠ '.') :
    is_media_file fname = MEDIA_EXTENSIONS.contains (strToLower fname) ∧
    (MEDIA_EXTENSIONS.contains (strToLower fname) = true →
      legacy_skip_file fname relFile patterns includeHidden ignoreExts = true) ∧
    splitextExt fname = "" ∧
    extOf fname = "" ∧
    MEDIA_EXTENSIONS.contains (extOf fname) = false := by
  have hld : ∀ c ∈ (strToLower fname).data, c ≠ '.' := strToLower_no_dot hnd
  have h1 : afterLastDot (strToLower fname) = strToLower fname :=
    afterLastDot_no_dot hld
  have h2 : splitextExt fname = "" := splitextExt_no_dot hnd
  have h3 : extOf fname = "" := by
    unfold extOf
    rw [h2]
    decide
  refine ⟨?_, ?_, h2, h3, ?_⟩
  · unfold is_media_file
    rw [h1]
  · intro hm
    unfold legacy_skip_file is_media_file
    rw [h1, hm]
    rfl
  · rw [h3]
    decide

/-- C9 witness: the dotless file name `png`. -/
theorem C9_witness :
    is_media_file ("png") = MEDIA_EXTENSIONS.contains (strToLower ("png")) ∧
    (MEDIA_EXTENSIONS.contains (strToLower ("png")) = true →
      legacy_skip_file ("png") ("png") [".git/"] false [] = true) ∧
    splitextExt ("png") = "" ∧
    extOf ("png") = "" ∧
    MEDIA_EXTENSIONS.contains (extOf ("png")) = false :=
  C9_dotless_media ("png") ("png") [".git/"] false [] (by decide)

/-- C10: the tree returned by the generalized scan has no entry for the
root directory itself — every top-level entry carries the name of one of
the root's children — and the renderer emits root-level entries at zero
indentation: the root level is rendered with the empty indent, a file line
is just the name, a directory line the name plus `/`, children indented by
four more spaces. -/
theorem C10_no_root_entry (cfg : Config) (b : Bool) (l : List FSEntry) :
    (∀ e ∈ (scan cfg b l).1, ∃ fe ∈ l, entryName e = fsName fe) ∧
    (∀ nm p rest, renderTreeText (Entry.file nm p :: rest) ("") =
        nm ++ "\n" ++ renderTreeText rest ("")) ∧
    (∀ nm ch rest, renderTreeText (Entry.dir nm ch :: rest) ("") =
        nm ++ "/\n" ++ renderTreeText ch ("    ") ++ renderTreeText rest ("")) ∧
    (∀ t c, render_text t c =
        "Directory structure:\n" ++ renderTreeText t ("") ++ "\nFile contents:\n" ++
          String.join (c.map (fun kv => contentBlock kv.1 kv.2))) := by
  refine ⟨?_, ?_, ?_, fun t c => rfl⟩
  · by_cases hroot : depthExceeded cfg.maxDepth 0 = true
    · rw [scan_cut cfg b l (Or.inl hroot)]
      simp
    · cases b with
      | false =>
        rw [scan_cut cfg false l (Or.inr rfl)]
        simp
      | true =>
        rw [scan_go cfg l (Bool.eq_false_iff.mpr hroot)]
        rw [scanGo_fst cfg (sortFSList l) ("") 0 []]
        intro e he
        obtain ⟨fe, hfe, hn⟩ := specTree_names cfg (sortFSList l) ("") 0 e he
        obtain ⟨g, hg, hg2⟩ := sortFSList_names hfe
        exact ⟨g, hg, hn.trans hg2⟩
  · intro nm p rest
    rw [renderTreeText_file]
    apply String.ext
    simp [String.data_append]
  · intro nm ch rest
    rw [renderTreeText_dir]
    rw [show (("" : String) ++ ("    ")) = ("    ") by decide]
    apply String.ext
    simp [String.data_append]

end CodePrinter
